import Mathlib

/-!
# Lights Out: the board engine of `src/Board.js`

A shallow embedding of the board logic of the `Board` component
(`simulateFlip`, `createBoard`, `hasWon` and the state updater of
`flipCellsAround`) together with the properties of the written specification.

Modelling conventions.

* A board value is a list of rows, each row a list of booleans
  (JavaScript array of arrays of `true`/`false`).
* `nrows`, `ncols` and all coordinates are integers.  A number is a rational;
  a product of two numbers is rounded to double precision (`roundDouble`),
  and `Array(n)` accepts the lengths from `0` to `2 ^ 32 - 1`.
* An array access outside the array makes the operation return `none` (in
  JavaScript: a `TypeError` when the row is missing, a write that grows the
  row when the column is missing).  `none` is also the result of a thrown
  `RangeError` and of a loop that does not end.
* `Math.random()` is an explicit stream `draws : Nat → ℚ` read at a position
  that advances by one on each call; the theorems that need it assume that
  the draws are doubles (`IsDouble`) in `[0, 1)`.
* Strings are lists of characters; the component's result is a `View`, and a
  game session is the step relation `Board.Step` of the clicks on its cells.
-/

namespace LightsOut

/-- A board value: rows of booleans, `true` is lit. -/
abbrev Grid := List (List Bool)

/-- The cell `board[i][j]`, when both indexes are inside the arrays. -/
def Grid.cell (board : Grid) (i j : Nat) : Option Bool :=
  match board[i]? with
  | none => none
  | some row => row[j]?

/-- A board of `nrows` rows, each of `ncols` cells. -/
def WellFormed (nrows ncols : Int) (board : Grid) : Prop :=
  (board.length : Int) = nrows ∧ ∀ row ∈ board, (row.length : Int) = ncols

instance (nrows ncols : Int) (board : Grid) : Decidable (WellFormed nrows ncols board) := by
  unfold WellFormed; infer_instance

/-- The inner `flipCell` of `simulateFlip` (Board.js lines 50-54): when the
coordinate passes the bounds check, `board[y][x] = !board[y][x]`. -/
def simulateFlip.flipCell (nrows ncols : Int) (board : Grid) (y x : Int) : Option Grid :=
  if x ≥ 0 ∧ x < ncols ∧ y ≥ 0 ∧ y < nrows then
    match board[y.toNat]? with
    | none => none
    | some row =>
      match row[x.toNat]? with
      | none => none
      | some v => some (board.set y.toNat (row.set x.toNat (!v)))
  else some board

/-- The function `simulateFlip(board, y, x)` (Board.js lines 49-61): the five
calls of `flipCell`, in the order of the source, on the same board. -/
def simulateFlip (nrows ncols : Int) (board : Grid) (y x : Int) : Option Grid := do
  let b1 ← simulateFlip.flipCell nrows ncols board y x
  let b2 ← simulateFlip.flipCell nrows ncols b1 y (x - 1)
  let b3 ← simulateFlip.flipCell nrows ncols b2 y (x + 1)
  let b4 ← simulateFlip.flipCell nrows ncols b3 (y - 1) x
  simulateFlip.flipCell nrows ncols b4 (y + 1) x

/-- The five coordinates of the plus shape centred at `(y, x)`. -/
def inCross (y x i j : Int) : Bool :=
  (i = y ∧ j = x) ∨ (i = y ∧ j = x - 1) ∨ (i = y ∧ j = x + 1) ∨
    (i = y - 1 ∧ j = x) ∨ (i = y + 1 ∧ j = x)

/-- The all-unlit board: `Array(nrows)` rows, each `Array(ncols).fill(false)`. -/
def allFalse (nrows ncols : Nat) : Grid :=
  List.replicate nrows (List.replicate ncols false)

/-- The function `hasWon` (Board.js lines 90-97): scan the rows, answer `false`
at the first row that includes `true`, and `true` when no row does. -/
def hasWon : Grid → Bool
  | [] => true
  | row :: rest => if row.contains true then false else hasWon rest

/-! ### Double precision

Numbers are rationals.  `IsDouble` says which of them are values of the
format, `roundDouble` is the rounding that the arithmetic applies to an exact
result (to nearest, ties to even), and `IsNearestDouble` is the property of a
rounded result that does not depend on the rule for ties. -/

/-- A finite double: an integer of less than 53 bits times a power of two with
an exponent in the range of the format. -/
def IsDouble (q : ℚ) : Prop :=
  ∃ m e : Int, |m| < 2 ^ 53 ∧ -1074 ≤ e ∧ e ≤ 971 ∧ q = (m : ℚ) * (2 : ℚ) ^ e

/-- The double `r` is nearest to `x`: a value that rounding to nearest may
return for the exact result `x`, whatever the rule for ties. -/
def IsNearestDouble (x r : ℚ) : Prop :=
  IsDouble r ∧ ∀ r', IsDouble r' → |r - x| ≤ |r' - x|

/-- Rounding to the nearest integer, a tie to the even one. -/
def roundHalfEven (q : ℚ) : Int :=
  if q - ⌊q⌋ < 1 / 2 then ⌊q⌋
  else if 1 / 2 < q - ⌊q⌋ then ⌊q⌋ + 1
  else if ⌊q⌋ % 2 = 0 then ⌊q⌋ else ⌊q⌋ + 1

/-- The exponent `e` of the binade of `q`, `2 ^ e ≤ |q| < 2 ^ (e + 1)`, and
`-1022`, the exponent of the subnormal numbers, below it.  At `q = 0` the
value is `0`; zero rounds to zero with any spacing. -/
def binade (q : ℚ) : Int := max (Int.log 2 |q|) (-1022)

/-- Rounding of an exact result to double precision: to the nearest multiple
of `2 ^ (e - 52)`, the spacing of the doubles in the binade `e` of the result,
ties to the even multiple.  A result of magnitude `2 ^ 1024` or more stands
for an infinity. -/
@[irreducible] def roundDouble (q : ℚ) : ℚ :=
  (roundHalfEven (q / (2 : ℚ) ^ (binade q - 52)) : ℚ) * (2 : ℚ) ^ (binade q - 52)

/-- The state of `createBoard` between two statements: the board built so far
and the position of the next draw of `Math.random()`. -/
abbrev GenState := Grid × Nat

/-- One iteration of the seeding loop (Board.js lines 71-73): two draws give
`y = Math.floor(Math.random() * nrows)` and `x = Math.floor(Math.random() * ncols)`,
each product rounded to double precision before the floor, then
`simulateFlip(initialBoard, y, x)`.  When the loop runs, `nrows` and `ncols`
are array lengths, so they are doubles themselves. -/
def createBoard.seedStep (nrows ncols : Int) (draws : Nat → ℚ) (s : GenState) :
    Option GenState :=
  let y : Int := ⌊roundDouble (draws s.2 * (nrows : ℚ))⌋
  let x : Int := ⌊roundDouble (draws (s.2 + 1) * (ncols : ℚ))⌋
  match simulateFlip nrows ncols s.1 y x with
  | none => none
  | some b => some (b, s.2 + 2)

/-- The body of the inner lighting loop (Board.js lines 79-81): one draw, and
`simulateFlip(initialBoard, y, x)` when it is below `chanceLightStartsOn`. -/
def createBoard.lightStep (nrows ncols : Int) (chanceLightStartsOn : ℚ) (draws : Nat → ℚ)
    (y x : Nat) (s : GenState) : Option GenState :=
  if draws s.2 < chanceLightStartsOn then
    match simulateFlip nrows ncols s.1 y x with
    | none => none
    | some b => some (b, s.2 + 1)
  else some (s.1, s.2 + 1)

/-- The function `createBoard` (Board.js lines 66-86).  `Array(n)` throws a
`RangeError` for a negative `n` and for `n` from `2 ^ 32` on: for `nrows` at
once, for `ncols` in the callback of `map`, which runs only when there is a
row.  The callback builds a new row array on each call, so no two rows of
`initialBoard` are the same object and the board is passed along as a value.
The seeding loop compares its counter `i` with the double `nrows * ncols`;
`i++` counts up to `2 ^ 53` and stays there, so the loop ends after
`nrows * ncols` iterations when that double is at most `2 ^ 53` and does not
end otherwise.  The result carries the number of draws consumed. -/
def createBoard (nrows ncols : Int) (chanceLightStartsOn : ℚ) (draws : Nat → ℚ) :
    Option GenState :=
  if nrows < 0 ∨ 2 ^ 32 ≤ nrows then none
  else if 0 < nrows ∧ (ncols < 0 ∨ 2 ^ 32 ≤ ncols) then none
  else if 2 ^ 53 < roundDouble (((nrows * ncols : Int) : ℚ)) then none
  else do
    let initialBoard : Grid := List.replicate nrows.toNat (List.replicate ncols.toNat false)
    let seeded ← (List.range ⌊roundDouble (((nrows * ncols : Int) : ℚ))⌋.toNat).foldlM
      (fun s _ => createBoard.seedStep nrows ncols draws s) (initialBoard, 0)
    (List.range nrows.toNat).foldlM
      (fun s y => (List.range ncols.toNat).foldlM
        (fun s x => createBoard.lightStep nrows ncols chanceLightStartsOn draws y x s) s)
      seeded

/-! ### The updater of `flipCellsAround`, on a heap

The updater receives `oldBoard` by reference, so its frame property needs the
arrays as objects: a store of row arrays and a store of outer arrays, an outer
array holding the addresses of its rows. -/

/-- The array objects: `rows[a]` is the row array at address `a`, `boards[b]`
the outer array at address `b`, a list of row addresses. -/
structure Heap where
  rows : List (List Bool)
  boards : List (List Nat)
deriving DecidableEq

/-- The rows found at a list of row addresses. -/
def readRows (rows : List (List Bool)) : List Nat → Option Grid
  | [] => some []
  | a :: rest =>
    match rows[a]? with
    | none => none
    | some row =>
      match readRows rows rest with
      | none => none
      | some g => some (row :: g)

/-- The value of the board at address `b`. -/
def Heap.deref (h : Heap) (b : Nat) : Option Grid :=
  match h.boards[b]? with
  | none => none
  | some outer => readRows h.rows outer

/-- The expression `JSON.parse(JSON.stringify(oldBoard))` (Board.js line 118):
the value of `oldBoard` is written out, and parsing allocates one new row
array per row and one new outer array. -/
def Heap.jsonCopy (h : Heap) (oldBoard : Nat) : Option (Heap × Nat) :=
  match h.deref oldBoard with
  | none => none
  | some v =>
    some ({ rows := h.rows ++ v,
            boards := h.boards ++ [List.range' h.rows.length v.length] }, h.boards.length)

/-- The inner `flipCell` of the updater (Board.js lines 109-116):
`boardCopy[y][x] = !boardCopy[y][x]` when the coordinate is on the board. -/
def flipCellsAround.flipCell (nrows ncols : Int) (y x : Int) (h : Heap) (boardCopy : Nat) :
    Option Heap :=
  if x ≥ 0 ∧ x < ncols ∧ y ≥ 0 ∧ y < nrows then
    match h.boards[boardCopy]? with
    | none => none
    | some outer =>
      match outer[y.toNat]? with
      | none => none
      | some a =>
        match h.rows[a]? with
        | none => none
        | some row =>
          match row[x.toNat]? with
          | none => none
          | some v => some { h with rows := h.rows.set a (row.set x.toNat (!v)) }
  else some h

/-- The state updater passed to `setBoard` in `flipCellsAround` (Board.js lines
106-127), for the parsed coordinate `[y, x]`: the heap after the call and the
address of the returned `boardCopy`. -/
def flipCellsAround.updater (nrows ncols : Int) (y x : Int) (h : Heap) (oldBoard : Nat) :
    Option (Heap × Nat) := do
  let (h0, boardCopy) ← h.jsonCopy oldBoard
  let h1 ← flipCellsAround.flipCell nrows ncols y x h0 boardCopy
  let h2 ← flipCellsAround.flipCell nrows ncols y (x - 1) h1 boardCopy
  let h3 ← flipCellsAround.flipCell nrows ncols y (x + 1) h2 boardCopy
  let h4 ← flipCellsAround.flipCell nrows ncols (y - 1) x h3 boardCopy
  let h5 ← flipCellsAround.flipCell nrows ncols (y + 1) x h4 boardCopy
  pure (h5, boardCopy)

/-! ### Vocabulary of the properties -/

/-- The coordinate `(y, x)` is on the board. -/
def onBoard (nrows ncols : Int) (p : Int × Int) : Bool :=
  0 ≤ p.1 ∧ p.1 < nrows ∧ 0 ≤ p.2 ∧ p.2 < ncols

/-- The five coordinates that `simulateFlip(board, y, x)` passes to `flipCell`. -/
def crossCoords (y x : Int) : List (Int × Int) :=
  [(y, x), (y, x - 1), (y, x + 1), (y - 1, x), (y + 1, x)]

/-- The positions, among the `nrows * ncols` of the board, where two boards differ. -/
def diffCells (nrows ncols : Nat) (A B : Grid) : Finset (Nat × Nat) :=
  (Finset.range nrows ×ˢ Finset.range ncols).filter
    (fun p => Grid.cell A p.1 p.2 ≠ Grid.cell B p.1 p.2)

/-- A sequence of cross toggles, one `simulateFlip` after the other. -/
def applyMoves (nrows ncols : Int) : List (Int × Int) → Grid → Option Grid
  | [], board => some board
  | (y, x) :: rest, board =>
    match simulateFlip nrows ncols board y x with
    | none => none
    | some b => applyMoves nrows ncols rest b

/-- A sequence of player moves: the updater of `flipCellsAround` run on the
board returned by the previous one. -/
def playMoves (nrows ncols : Int) : List (Int × Int) → Heap → Nat → Option (Heap × Nat)
  | [], h, b => some (h, b)
  | (y, x) :: rest, h, b =>
    match flipCellsAround.updater nrows ncols y x h b with
    | none => none
    | some (h1, b1) => playMoves nrows ncols rest h1 b1

/-- The coordinates of the first `k` seed toggles of `createBoard`: toggle `i`
uses the draws `2 * i` and `2 * i + 1`. -/
def seedMoves (nrows ncols : Int) (draws : Nat → ℚ) (k : Nat) : List (Int × Int) :=
  (List.range k).map
    (fun (i : Nat) => ((⌊roundDouble (draws (2 * i) * (nrows : ℚ))⌋ : Int),
      (⌊roundDouble (draws (2 * i + 1) * (ncols : ℚ))⌋ : Int)))

/-- The coordinates of the lighting toggles of `createBoard` when the draws of
the lighting loops start at position `p`: the cells in row-major order whose
draw is below `chanceLightStartsOn`. -/
def lightMoves (nrows ncols : Int) (chanceLightStartsOn : ℚ) (draws : Nat → ℚ) (p : Nat) :
    List (Int × Int) :=
  ((List.range (nrows.toNat * ncols.toNat)).filter
    (fun (k : Nat) => draws (p + k) < chanceLightStartsOn)).map
    (fun (k : Nat) => (((k / ncols.toNat : Nat) : Int), ((k % ncols.toNat : Nat) : Int)))

/-- The seed coordinates as the specification words them: for the `i`-th of the
`nrows * ncols` seed toggles, two draws `u`, `v` give `(⌊u * nrows⌋, ⌊v * ncols⌋)`,
the products being those of the arithmetic of the program. -/
def specSeedMoves (nrows ncols : Int) (draws : Nat → ℚ) : List (Int × Int) :=
  (List.range (nrows * ncols).toNat).map
    (fun (i : Nat) => ((⌊roundDouble (draws (2 * i) * (nrows : ℚ))⌋ : Int),
      (⌊roundDouble (draws (2 * i + 1) * (ncols : ℚ))⌋ : Int)))

/-- The lighting toggles as the specification words them: the cells in row-major
order, one draw `w` each after the seed draws, kept exactly when
`w < chanceLightStartsOn`. -/
def specLightMoves (nrows ncols : Int) (chanceLightStartsOn : ℚ) (draws : Nat → ℚ) :
    List (Int × Int) :=
  ((List.range (nrows * ncols).toNat).filter
    (fun (k : Nat) => draws (2 * (nrows * ncols).toNat + k) < chanceLightStartsOn)).map
    (fun (k : Nat) => (((k / ncols.toNat : Nat) : Int), ((k % ncols.toNat : Nat) : Int)))

/-- The generation procedure as the specification words it: the all-unlit board,
then the seed toggles, then the lighting toggles; `3 * nrows * ncols` draws. -/
def specCreateBoard (nrows ncols : Int) (chanceLightStartsOn : ℚ) (draws : Nat → ℚ) :
    Option GenState :=
  match applyMoves nrows ncols
      (specSeedMoves nrows ncols draws ++ specLightMoves nrows ncols chanceLightStartsOn draws)
      (allFalse nrows.toNat ncols.toNat) with
  | none => none
  | some b => some (b, 2 * (nrows * ncols).toNat + (nrows * ncols).toNat)

/-! ### Cell keys, clicks and the rendered view

Strings are lists of characters.  A number that is printed or parsed is a
natural number in plain decimal notation. -/

/-- The decimal numeral of a natural number: what a template literal prints
for an integer up to `2 ^ 53`.  Larger numbers print in another form, zeros
for the digits that the double does not hold and an exponent from `1e21` on;
the numeral of such a number is not what the program prints. -/
def decimal (n : Nat) : List Char := Nat.toDigits 10 n

/-- The key of the cell at `(y, x)` (Board.js line 139), the template literal
of `y`, a dash and `x`; faithful for indexes up to `2 ^ 53`, which covers the
indexes of an array. -/
def Board.coord (y x : Nat) : List Char := decimal y ++ '-' :: decimal x

/-- The method `split` with a separator of one character: the pieces between
the separators, one piece more than there are separators. -/
def split (sep : Char) : List Char → List (List Char)
  | [] => [[]]
  | c :: cs =>
    if c = sep then [] :: split sep cs
    else
      match split sep cs with
      | [] => [[c]]
      | piece :: pieces => (c :: piece) :: pieces

/-- The value of a decimal digit. -/
def digitValue (c : Char) : Option Nat :=
  if '0'.toNat ≤ c.toNat ∧ c.toNat ≤ '9'.toNat then some (c.toNat - '0'.toNat) else none

/-- The conversion `Number(s)` on a string of decimal digits: the value of the
numeral rounded to double precision, `0` on the empty string.  A result of
`2 ^ 1024` or more stands for `Infinity`.  Every other string is outside the
fragment that is modelled (`none`); the keys that the board builds are
inside. -/
def Number (s : List Char) : Option Nat :=
  (s.foldlM (fun acc c => (digitValue c).map (fun d => acc * 10 + d)) 0).map
    (fun (v : Nat) => ⌊roundDouble (v : ℚ)⌋.toNat)

/-- The destructuring `const [y, x] = coord.split("-").map(Number)` (Board.js
line 107): the first two pieces, as numbers. -/
def flipCellsAround.parse (coord : List Char) : Option (Int × Int) :=
  match (split '-' coord).map Number with
  | some y :: some x :: _ => some ((y : Int), (x : Int))
  | _ => none

/-- The function `flipCellsAround(coord)` (Board.js lines 105-128): the updater
at the coordinate parsed from `coord`, applied to the state `oldBoard`.  A key
outside the modelled fragment of `Number` gives `none`. -/
def flipCellsAround (nrows ncols : Int) (coord : List Char) (h : Heap) (oldBoard : Nat) :
    Option (Heap × Nat) :=
  match flipCellsAround.parse coord with
  | none => none
  | some (y, x) => flipCellsAround.updater nrows ncols y x h oldBoard

/-- What the component returns: the heading `You win!`, or the table of cells,
each cell with its key and its `isLit`.  The click handler of a cell calls
`flipCellsAround` with the key of the cell. -/
inductive View where
  | win : View
  | table (cells : List (List (List Char × Bool))) : View
deriving DecidableEq

/-- The rows of the table (Board.js lines 135-143), for the row indexes `ys`:
row `y` holds, for each `x` below `ncols`, the cell with key `Board.coord y x`
and `isLit = board[y][x]`.  A missing row is a `TypeError` (`none`); a missing
cell reads `undefined`, which renders unlit. -/
def Board.tableRows (ncols : Int) (board : Grid) :
    List Nat → Option (List (List (List Char × Bool)))
  | [] => some []
  | y :: ys =>
    match board[y]? with
    | none => none
    | some row =>
      match Board.tableRows ncols board ys with
      | none => none
      | some rest =>
        some ((List.range ncols.toNat).map
          (fun (x : Nat) => (Board.coord y x, (row[x]?).getD false)) :: rest)

/-- The body of the component after its declarations (Board.js lines 130-149):
the heading when `hasWon()`, the table otherwise. -/
def Board.render (nrows ncols : Int) (board : Grid) : Option View :=
  if hasWon board then some View.win
  else
    match Board.tableRows ncols board (List.range nrows.toNat) with
    | none => none
    | some cells => some (View.table cells)

/-- The keys of the cells that a view shows, one click handler each. -/
def View.handlers : View → List (List Char)
  | View.win => []
  | View.table cells => cells.flatten.map (fun cell => cell.1)

/-- One step of a game session: the board state is rendered, the player clicks
a cell of the view, and the handler of that cell replaces the state. -/
def Board.Step (nrows ncols : Int) (s s' : Heap × Nat) : Prop :=
  ∃ G view coord, s.1.deref s.2 = some G ∧ Board.render nrows ncols G = some view ∧
    coord ∈ view.handlers ∧ flipCellsAround nrows ncols coord s.1 s.2 = some s'

/-! ## Cells of a board -/

theorem Grid.cell_set (board : Grid) (k : Nat) (row : List Bool) (i j : Nat)
    (hk : k < board.length) :
    Grid.cell (board.set k row) i j = if k = i then row[j]? else Grid.cell board i j := by
  unfold Grid.cell
  rw [List.getElem?_set]
  by_cases h : k = i
  · subst h; simp [hk]
  · simp [h]

theorem Grid.ext_cell {A B : Grid} (hlen : A.length = B.length)
    (h : ∀ i j, Grid.cell A i j = Grid.cell B i j) : A = B := by
  apply List.ext_getElem?
  intro i
  by_cases hi : i < A.length
  · have hi' : i < B.length := hlen ▸ hi
    have hA : A[i]? = some A[i] := List.getElem?_eq_getElem hi
    have hB : B[i]? = some B[i] := List.getElem?_eq_getElem hi'
    rw [hA, hB]
    congr 1
    apply List.ext_getElem?
    intro j
    have := h i j
    simpa [Grid.cell, hA, hB] using this
  · have hi' : ¬ i < B.length := hlen ▸ hi
    rw [List.getElem?_eq_none (by omega), List.getElem?_eq_none (by omega)]

theorem WellFormed.cell_isSome {nrows ncols : Int} {board : Grid}
    (hwf : WellFormed nrows ncols board) {i j : Nat} (hi : (i : Int) < nrows)
    (hj : (j : Int) < ncols) : ∃ v, Grid.cell board i j = some v := by
  obtain ⟨hlen, hrows⟩ := hwf
  have hi' : i < board.length := by omega
  have hrow := hrows board[i] (List.getElem_mem hi')
  have hj' : j < board[i].length := by omega
  exact ⟨board[i][j], by simp [Grid.cell, List.getElem?_eq_getElem hi', List.getElem?_eq_getElem hj']⟩

theorem WellFormed.cell_eq_none {nrows ncols : Int} {board : Grid}
    (hwf : WellFormed nrows ncols board) {i j : Nat}
    (h : ¬ ((i : Int) < nrows ∧ (j : Int) < ncols)) : Grid.cell board i j = none := by
  obtain ⟨hlen, hrows⟩ := hwf
  unfold Grid.cell
  by_cases hi : i < board.length
  · have hrow := hrows board[i] (List.getElem_mem hi)
    rw [List.getElem?_eq_getElem hi]
    simp only
    apply List.getElem?_eq_none
    omega
  · rw [List.getElem?_eq_none (by omega)]

/-! ## One guarded flip -/

theorem simulateFlip.flipCell_spec {nrows ncols : Int} {board : Grid}
    (hwf : WellFormed nrows ncols board) (y x : Int) :
    ∃ b, simulateFlip.flipCell nrows ncols board y x = some b ∧ WellFormed nrows ncols b ∧
      ∀ i j : Nat, Grid.cell b i j =
        if (i : Int) = y ∧ (j : Int) = x then (Grid.cell board i j).map not
        else Grid.cell board i j := by
  unfold simulateFlip.flipCell
  by_cases hb : x ≥ 0 ∧ x < ncols ∧ y ≥ 0 ∧ y < nrows
  · rw [if_pos hb]
    obtain ⟨hx0, hx1, hy0, hy1⟩ := hb
    have hlen := hwf.1
    have hy' : y.toNat < board.length := by omega
    have hrow := hwf.2 board[y.toNat] (List.getElem_mem hy')
    have hx' : x.toNat < board[y.toNat].length := by omega
    rw [List.getElem?_eq_getElem hy']
    simp only
    rw [List.getElem?_eq_getElem hx']
    refine ⟨_, rfl, ⟨?_, ?_⟩, ?_⟩
    · simpa using hlen
    · intro row hmem
      rcases List.mem_or_eq_of_mem_set hmem with h | h
      · exact hwf.2 row h
      · rw [h]; simpa using hrow
    · intro i j
      rw [Grid.cell_set _ _ _ _ _ hy', List.getElem?_set]
      by_cases hi : y.toNat = i
      · rw [if_pos hi]
        have hc : Grid.cell board i j = board[y.toNat][j]? := by
          subst hi; simp [Grid.cell, List.getElem?_eq_getElem hy']
        by_cases hj : x.toNat = j
        · have h1 : (i : Int) = y ∧ (j : Int) = x := by omega
          rw [if_pos hj, if_pos hx', if_pos h1, hc]
          subst hj
          simp [List.getElem?_eq_getElem hx']
        · have h1 : ¬ ((i : Int) = y ∧ (j : Int) = x) := by omega
          rw [if_neg hj, if_neg h1, hc]
      · have h1 : ¬ ((i : Int) = y ∧ (j : Int) = x) := by omega
        rw [if_neg hi, if_neg h1]
  · rw [if_neg hb]
    refine ⟨board, rfl, hwf, ?_⟩
    intro i j
    by_cases h1 : (i : Int) = y ∧ (j : Int) = x
    · rw [if_pos h1, hwf.cell_eq_none (by omega)]; rfl
    · rw [if_neg h1]

/-! ## The cross toggle -/

theorem simulateFlip_spec {nrows ncols : Int} {board : Grid}
    (hwf : WellFormed nrows ncols board) (y x : Int) :
    ∃ b, simulateFlip nrows ncols board y x = some b ∧ WellFormed nrows ncols b ∧
      ∀ i j : Nat, Grid.cell b i j =
        if inCross y x i j then (Grid.cell board i j).map not else Grid.cell board i j := by
  obtain ⟨b1, e1, w1, c1⟩ := simulateFlip.flipCell_spec hwf y x
  obtain ⟨b2, e2, w2, c2⟩ := simulateFlip.flipCell_spec w1 y (x - 1)
  obtain ⟨b3, e3, w3, c3⟩ := simulateFlip.flipCell_spec w2 y (x + 1)
  obtain ⟨b4, e4, w4, c4⟩ := simulateFlip.flipCell_spec w3 (y - 1) x
  obtain ⟨b5, e5, w5, c5⟩ := simulateFlip.flipCell_spec w4 (y + 1) x
  refine ⟨b5, ?_, w5, ?_⟩
  · simp [simulateFlip, e1, e2, e3, e4, e5]
  · intro i j
    rw [c5, c4, c3, c2, c1]
    simp only [inCross, Bool.decide_or, Bool.decide_and, Bool.or_eq_true, Bool.and_eq_true,
      decide_eq_true_eq]
    split_ifs <;> first | rfl | omega

theorem mem_crossCoords (y x i j : Int) :
    (i, j) ∈ crossCoords y x ↔ inCross y x i j = true := by
  simp [crossCoords, inCross]

theorem simulateFlip.flipCell_length {nrows ncols : Int} {g g' : Grid} {y x : Int}
    (h : simulateFlip.flipCell nrows ncols g y x = some g') : g'.length = g.length := by
  unfold simulateFlip.flipCell at h
  split_ifs at h
  · cases hr : g[y.toNat]? with
    | none => simp [hr] at h
    | some row =>
      cases hv : row[x.toNat]? with
      | none => simp [hr, hv] at h
      | some v =>
        simp only [hr, hv, Option.some.injEq] at h
        rw [← h, List.length_set]
  · simp only [Option.some.injEq] at h
    rw [← h]

/-! ## The updater on the heap -/

theorem readRows_append_range' (g pre : List (List Bool)) :
    readRows (pre ++ g) (List.range' pre.length g.length) = some g := by
  induction g generalizing pre with
  | nil => simp [readRows]
  | cons row rest ih =>
    have h1 : (pre ++ row :: rest)[pre.length]? = some row := by
      rw [List.getElem?_append_right (le_refl _)]; simp
    have h2 := ih (pre ++ [row])
    simp only [List.append_assoc, List.singleton_append, List.length_append, List.length_singleton]
      at h2
    simp only [List.length_cons, List.range'_succ, readRows, h1, h2]

theorem readRows_append_left {rows : List (List Bool)} {outer : List Nat} {G : Grid}
    (h : readRows rows outer = some G) (ext : List (List Bool)) :
    readRows (rows ++ ext) outer = some G := by
  induction outer generalizing G with
  | nil => simpa [readRows] using h
  | cons a rest ih =>
    simp only [readRows] at h ⊢
    cases ha : rows[a]? with
    | none => simp [ha] at h
    | some row =>
      have hlt : a < rows.length := by
        by_contra hc
        rw [List.getElem?_eq_none (by omega)] at ha
        exact Option.noConfusion ha
      rw [List.getElem?_append_left hlt, ha]
      simp only [ha] at h
      cases hr : readRows rows rest with
      | none => simp [hr] at h
      | some g =>
        simp only [hr] at h
        simp only [ih hr, h]

theorem flipCellsAround.flipCell_sim (nrows ncols : Int) (y x : Int)
    (pre g : List (List Bool)) (bs : List (List Nat)) :
    flipCellsAround.flipCell nrows ncols y x
        ⟨pre ++ g, bs ++ [List.range' pre.length g.length]⟩ bs.length =
      (simulateFlip.flipCell nrows ncols g y x).map
        (fun g' => ⟨pre ++ g', bs ++ [List.range' pre.length g'.length]⟩) := by
  unfold flipCellsAround.flipCell simulateFlip.flipCell
  by_cases hb : x ≥ 0 ∧ x < ncols ∧ y ≥ 0 ∧ y < nrows
  · rw [if_pos hb, if_pos hb]
    simp only [List.getElem?_concat_length]
    by_cases hy : y.toNat < g.length
    · rw [List.getElem?_range' _ _ hy, List.getElem?_eq_getElem hy]
      simp only [Nat.one_mul]
      have h1 : (pre ++ g)[pre.length + y.toNat]? = some g[y.toNat] := by
        rw [List.getElem?_append_right (by omega)]
        simp [List.getElem?_eq_getElem hy]
      rw [h1]
      simp only
      cases hv : (g[y.toNat])[x.toNat]? with
      | none => rfl
      | some v =>
        simp only [Option.map_some', List.length_set]
        rw [List.set_append_right _ _ (by omega)]
        simp
    · have h1 : (List.range' pre.length g.length)[y.toNat]? = none :=
        List.getElem?_eq_none (by simp; omega)
      rw [h1, List.getElem?_eq_none (by omega)]
      rfl
  · rw [if_neg hb, if_neg hb]
    rfl

theorem flipCellsAround.updater_eq (nrows ncols : Int) (y x : Int) (h : Heap) (oldBoard : Nat) :
    flipCellsAround.updater nrows ncols y x h oldBoard =
      match h.deref oldBoard with
      | none => none
      | some v => (simulateFlip nrows ncols v y x).map
          (fun g' => (⟨h.rows ++ g', h.boards ++ [List.range' h.rows.length g'.length]⟩,
            h.boards.length)) := by
  unfold flipCellsAround.updater Heap.jsonCopy simulateFlip
  cases hd : h.deref oldBoard with
  | none => rfl
  | some v =>
    simp only [Option.bind_eq_bind, Option.some_bind, Option.pure_def]
    rw [flipCellsAround.flipCell_sim]
    cases e1 : simulateFlip.flipCell nrows ncols v y x with
    | none => rfl
    | some g1 =>
      simp only [Option.map_some', Option.some_bind]
      rw [flipCellsAround.flipCell_sim]
      cases e2 : simulateFlip.flipCell nrows ncols g1 y (x - 1) with
      | none => rfl
      | some g2 =>
        simp only [Option.map_some', Option.some_bind]
        rw [flipCellsAround.flipCell_sim]
        cases e3 : simulateFlip.flipCell nrows ncols g2 y (x + 1) with
        | none => rfl
        | some g3 =>
          simp only [Option.map_some', Option.some_bind]
          rw [flipCellsAround.flipCell_sim]
          cases e4 : simulateFlip.flipCell nrows ncols g3 (y - 1) x with
          | none => rfl
          | some g4 =>
            simp only [Option.map_some', Option.some_bind]
            rw [flipCellsAround.flipCell_sim]
            cases e5 : simulateFlip.flipCell nrows ncols g4 (y + 1) x with
            | none => rfl
            | some g5 => rfl

theorem Heap.deref_copy (h : Heap) (g : Grid) :
    Heap.deref ⟨h.rows ++ g, h.boards ++ [List.range' h.rows.length g.length]⟩ h.boards.length
      = some g := by
  simp only [Heap.deref, List.getElem?_concat_length]
  exact readRows_append_range' g h.rows

theorem Heap.deref_old {h : Heap} {b : Nat} {G : Grid} (hd : h.deref b = some G)
    (g : Grid) (o : List Nat) :
    Heap.deref ⟨h.rows ++ g, h.boards ++ [o]⟩ b = some G := by
  unfold Heap.deref at hd ⊢
  cases hb : h.boards[b]? with
  | none => simp [hb] at hd
  | some outer =>
    have hlt : b < h.boards.length := by
      by_contra hc
      rw [List.getElem?_eq_none (by omega)] at hb
      exact Option.noConfusion hb
    simp only [hb] at hd
    simp only [List.getElem?_append_left hlt, hb]
    exact readRows_append_left hd g

theorem simulateFlip_involutive {nrows ncols : Int} {G G1 : Grid}
    (hwf : WellFormed nrows ncols G) {y x : Int}
    (h1 : simulateFlip nrows ncols G y x = some G1) :
    simulateFlip nrows ncols G1 y x = some G := by
  obtain ⟨b1, e1, w1, c1⟩ := simulateFlip_spec hwf y x
  rw [h1, Option.some.injEq] at e1
  subst e1
  obtain ⟨b2, e2, w2, c2⟩ := simulateFlip_spec w1 y x
  rw [e2]
  congr 1
  apply Grid.ext_cell
  · have := w2.1; have := hwf.1; omega
  · intro i j
    rw [c2, c1]
    split_ifs
    · cases Grid.cell G i j <;> simp
    · rfl

theorem flipCellsAround.updater_spec {nrows ncols : Int} {h : Heap} {oldBoard : Nat} {G : Grid}
    (hd : h.deref oldBoard = some G) (hwf : WellFormed nrows ncols G) (y x : Int) :
    ∃ h' boardCopy G', flipCellsAround.updater nrows ncols y x h oldBoard = some (h', boardCopy) ∧
      simulateFlip nrows ncols G y x = some G' ∧ h'.deref boardCopy = some G' ∧
      h'.deref oldBoard = some G := by
  obtain ⟨G', e, -, -⟩ := simulateFlip_spec hwf y x
  refine ⟨_, _, G', ?_, e, Heap.deref_copy h G', Heap.deref_old hd G' _⟩
  rw [flipCellsAround.updater_eq, hd]
  simp only [e, Option.map_some']

/-- C1: on a well-formed `nrows × ncols` board and for every integer coordinate
`(y, x)`, on the board or not, `simulateFlip` returns a board in which every
cell of the grid that is one of the five coordinates of the plus shape is
negated and every other cell of the grid is unchanged; on the all-unlit 3×3
board a toggle at `(1, 1)` lights exactly the centre and its four neighbours. -/
theorem simulateFlip_flips_cross (nrows ncols : Int) (G : Grid)
    (hwf : WellFormed nrows ncols G) (y x : Int) :
    (∃ G', simulateFlip nrows ncols G y x = some G' ∧
      ∀ i j : Nat, (i : Int) < nrows → (j : Int) < ncols →
        ∃ v, Grid.cell G i j = some v ∧
          Grid.cell G' i j = some (if ((i : Int), (j : Int)) ∈ crossCoords y x then !v else v)) ∧
    simulateFlip 3 3 (allFalse 3 3) 1 1 =
      some [[false, true, false], [true, true, true], [false, true, false]] := by
  refine ⟨?_, by decide⟩
  obtain ⟨G', e, -, c⟩ := simulateFlip_spec hwf y x
  refine ⟨G', e, ?_⟩
  intro i j hi hj
  obtain ⟨v, hv⟩ := hwf.cell_isSome hi hj
  refine ⟨v, hv, ?_⟩
  rw [c, hv]
  by_cases hc : inCross y x i j = true
  · rw [if_pos hc, if_pos ((mem_crossCoords y x i j).2 hc)]; rfl
  · rw [if_neg hc, if_neg (fun hm => hc ((mem_crossCoords y x i j).1 hm))]

/-- Witness of C1: a corner toggle on a 2×2 board, with an off-grid neighbour. -/
theorem simulateFlip_flips_cross_witness :
    WellFormed 2 2 [[true, false], [false, false]] ∧
    ∃ G', simulateFlip 2 2 [[true, false], [false, false]] 0 0 = some G' ∧
      ∀ i j : Nat, (i : Int) < 2 → (j : Int) < 2 →
        ∃ v, Grid.cell [[true, false], [false, false]] i j = some v ∧
          Grid.cell G' i j = some (if ((i : Int), (j : Int)) ∈ crossCoords 0 0 then !v else v) :=
  ⟨by decide, (simulateFlip_flips_cross 2 2 [[true, false], [false, false]] (by decide) 0 0).1⟩

/-- C2: the updater of `flipCellsAround` never mutates its input.  Whenever it
returns, every row array and every outer array that existed before the call
is unchanged, so `oldBoard` has the value it had; the returned `boardCopy` is
a new array; and on a well-formed board the updater does return. -/
theorem updater_never_mutates_input (nrows ncols : Int) (y x : Int) (h : Heap) (oldBoard : Nat) :
    (∀ h' boardCopy,
      flipCellsAround.updater nrows ncols y x h oldBoard = some (h', boardCopy) →
        h'.deref oldBoard = h.deref oldBoard ∧
        (∀ a, a < h.rows.length → h'.rows[a]? = h.rows[a]?) ∧
        (∀ b, b < h.boards.length → h'.boards[b]? = h.boards[b]?) ∧
        h.boards.length ≤ boardCopy) ∧
    (∀ G, h.deref oldBoard = some G → WellFormed nrows ncols G →
      ∃ h' boardCopy, flipCellsAround.updater nrows ncols y x h oldBoard = some (h', boardCopy) ∧
        h'.deref oldBoard = some G) := by
  constructor
  · intro h' boardCopy hu
    rw [flipCellsAround.updater_eq] at hu
    cases hd : h.deref oldBoard with
    | none => simp [hd] at hu
    | some v =>
      simp only [hd] at hu
      cases hs : simulateFlip nrows ncols v y x with
      | none => simp [hs] at hu
      | some g' =>
        simp only [hs, Option.map_some', Option.some.injEq, Prod.mk.injEq] at hu
        obtain ⟨hh, hb⟩ := hu
        subst hh
        refine ⟨Heap.deref_old hd g' _, ?_, ?_, by omega⟩
        · intro a ha
          exact List.getElem?_append_left ha
        · intro b hb
          exact List.getElem?_append_left hb
  · intro G hd hwf
    obtain ⟨h', boardCopy, G', hu, -, -, hold⟩ := flipCellsAround.updater_spec hd hwf y x
    exact ⟨h', boardCopy, hu, hold⟩

/-- Witness of C2: a move at `(0, 0)` on a 2×2 all-unlit board held at address 0. -/
theorem updater_never_mutates_input_witness :
    ∃ h' boardCopy,
      flipCellsAround.updater 2 2 0 0 ⟨[[false, false], [false, false]], [[0, 1]]⟩ 0
        = some (h', boardCopy) ∧
      h'.deref 0 = some [[false, false], [false, false]] :=
  (updater_never_mutates_input 2 2 0 0 ⟨[[false, false], [false, false]], [[0, 1]]⟩ 0).2
    [[false, false], [false, false]] (by decide) (by decide)

/-- C3: on a well-formed board the board returned by the updater of
`flipCellsAround` is the board that `simulateFlip` computes at the same
coordinate from the value of `oldBoard`. -/
theorem updater_refines_simulateFlip (nrows ncols : Int) (y x : Int) (h : Heap)
    (oldBoard : Nat) (G : Grid) (hd : h.deref oldBoard = some G)
    (hwf : WellFormed nrows ncols G) :
    ∃ h' boardCopy G', flipCellsAround.updater nrows ncols y x h oldBoard = some (h', boardCopy) ∧
      simulateFlip nrows ncols G y x = some G' ∧ h'.deref boardCopy = some G' := by
  obtain ⟨h', boardCopy, G', hu, hs, hnew, -⟩ := flipCellsAround.updater_spec hd hwf y x
  exact ⟨h', boardCopy, G', hu, hs, hnew⟩

/-- Witness of C3: a move at `(1, 0)` on a 2×2 board. -/
theorem updater_refines_simulateFlip_witness :
    ∃ h' boardCopy G',
      flipCellsAround.updater 2 2 1 0 ⟨[[true, false], [false, false]], [[0, 1]]⟩ 0
        = some (h', boardCopy) ∧
      simulateFlip 2 2 [[true, false], [false, false]] 1 0 = some G' ∧
      h'.deref boardCopy = some G' :=
  updater_refines_simulateFlip 2 2 1 0 ⟨[[true, false], [false, false]], [[0, 1]]⟩ 0
    [[true, false], [false, false]] (by decide) (by decide)

/-- C4: the cross toggle is an involution.  On a well-formed board and at every
coordinate, the in-bounds ones among them, `simulateFlip` applied twice gives
the board back, and so does the same move made twice through the updater of
`flipCellsAround`. -/
theorem toggle_twice_restores (nrows ncols : Int) (G : Grid) (hwf : WellFormed nrows ncols G)
    (r c : Int) :
    (∃ G1, simulateFlip nrows ncols G r c = some G1 ∧ simulateFlip nrows ncols G1 r c = some G) ∧
    (∀ (h : Heap) (b : Nat), h.deref b = some G →
      ∃ h1 b1 h2 b2, flipCellsAround.updater nrows ncols r c h b = some (h1, b1) ∧
        flipCellsAround.updater nrows ncols r c h1 b1 = some (h2, b2) ∧
        h2.deref b2 = some G) := by
  obtain ⟨G1, e1, w1, -⟩ := simulateFlip_spec hwf r c
  have e2 := simulateFlip_involutive hwf e1
  refine ⟨⟨G1, e1, e2⟩, ?_⟩
  intro h b hd
  obtain ⟨h1, b1, G1', hu1, hs1, hn1, -⟩ := flipCellsAround.updater_spec hd hwf r c
  rw [e1, Option.some.injEq] at hs1
  subst hs1
  obtain ⟨h2, b2, G2, hu2, hs2, hn2, -⟩ := flipCellsAround.updater_spec hn1 w1 r c
  rw [e2, Option.some.injEq] at hs2
  subst hs2
  exact ⟨h1, b1, h2, b2, hu1, hu2, hn2⟩

/-- Witness of C4: the corner `(0, 0)` of a 2×2 board. -/
theorem toggle_twice_restores_witness :
    ∃ G1, simulateFlip 2 2 [[true, false], [false, true]] 0 0 = some G1 ∧
      simulateFlip 2 2 G1 0 0 = some [[true, false], [false, true]] :=
  (toggle_twice_restores 2 2 [[true, false], [false, true]] (by decide) 0 0).1

/-! ## Counting the cells a toggle changes -/

theorem crossCoords_nodup (y x : Int) : (crossCoords y x).Nodup := by
  simp [crossCoords]
  omega

theorem diffCells_card {nrows ncols : Int} {G G' : Grid} (hwf : WellFormed nrows ncols G)
    {y x : Int} (e : simulateFlip nrows ncols G y x = some G') :
    (diffCells nrows.toNat ncols.toNat G G').card =
      ((crossCoords y x).filter (onBoard nrows ncols)).length := by
  obtain ⟨b, e', -, c⟩ := simulateFlip_spec hwf y x
  rw [e, Option.some.injEq] at e'
  subst e'
  rw [← List.toFinset_card_of_nodup ((crossCoords_nodup y x).filter _)]
  have hr : 0 ≤ nrows := by have := hwf.1; omega
  apply Finset.card_bij (fun p _ => ((p.1 : Int), (p.2 : Int)))
  · intro p hp
    simp only [diffCells, Finset.mem_filter, Finset.mem_product, Finset.mem_range] at hp
    obtain ⟨⟨h1, h2⟩, hne⟩ := hp
    have hi : (p.1 : Int) < nrows := by omega
    have hj : (p.2 : Int) < ncols := by omega
    rw [List.mem_toFinset, List.mem_filter, mem_crossCoords]
    constructor
    · by_contra hc
      rw [c, if_neg hc] at hne
      exact hne rfl
    · simp only [onBoard, decide_eq_true_eq]
      omega
  · intro p _ q _ hpq
    simp only [Prod.mk.injEq, Nat.cast_inj] at hpq
    exact Prod.ext hpq.1 hpq.2
  · intro q hq
    rw [List.mem_toFinset, List.mem_filter] at hq
    obtain ⟨hmem, hon⟩ := hq
    simp only [onBoard, decide_eq_true_eq] at hon
    obtain ⟨q1, q2⟩ := q
    simp only at hon
    have hq1 : ((q1.toNat : Nat) : Int) = q1 := Int.toNat_of_nonneg hon.1
    have hq2 : ((q2.toNat : Nat) : Int) = q2 := Int.toNat_of_nonneg hon.2.2.1
    refine ⟨(q1.toNat, q2.toNat), ?_, ?_⟩
    · simp only [diffCells, Finset.mem_filter, Finset.mem_product, Finset.mem_range]
      refine ⟨⟨by omega, by omega⟩, ?_⟩
      obtain ⟨v, hv⟩ := hwf.cell_isSome (i := q1.toNat) (j := q2.toNat) (by omega) (by omega)
      rw [c, hq1, hq2, if_pos ((mem_crossCoords y x q1 q2).1 hmem), hv]
      cases v <;> simp
    · simp only [hq1, hq2]

/-- C5: on a well-formed board, the number of cells that differ between the
board and the board after a cross toggle at `(r, c)` is the number of the five
coordinates of the cross that lie on the grid: 1 on a 1×1 board, the three
cells `(0,0)`, `(0,1)`, `(1,0)` at the corner `(0,0)` of a 3×3 board, and 5 for
an interior cell. -/
theorem toggle_diff_count (nrows ncols : Int) (G : Grid) (hwf : WellFormed nrows ncols G)
    (r c : Int) :
    ∃ G', simulateFlip nrows ncols G r c = some G' ∧
      (diffCells nrows.toNat ncols.toNat G G').card =
        ((crossCoords r c).filter (onBoard nrows ncols)).length ∧
      (nrows = 1 → ncols = 1 → r = 0 → c = 0 →
        (diffCells nrows.toNat ncols.toNat G G').card = 1) ∧
      (nrows = 3 → ncols = 3 → r = 0 → c = 0 →
        diffCells nrows.toNat ncols.toNat G G' = {(0, 0), (0, 1), (1, 0)}) ∧
      (1 ≤ r → r + 1 < nrows → 1 ≤ c → c + 1 < ncols →
        (diffCells nrows.toNat ncols.toNat G G').card = 5) := by
  obtain ⟨G', e, -, cs⟩ := simulateFlip_spec hwf r c
  have hcard := diffCells_card hwf e
  refine ⟨G', e, hcard, ?_, ?_, ?_⟩
  · intro h1 h2 h3 h4
    rw [hcard]; subst h1 h2 h3 h4
    decide
  · intro h1 h2 h3 h4
    subst h1 h2 h3 h4
    ext p
    obtain ⟨i, j⟩ := p
    simp only [diffCells, Finset.mem_filter, Finset.mem_product, Finset.mem_range,
      Finset.mem_insert, Finset.mem_singleton, Prod.mk.injEq]
    constructor
    · rintro ⟨⟨hi, hj⟩, hne⟩
      have hi' : i < 3 := hi
      have hj' : j < 3 := hj
      by_contra hc
      have hnc : ¬ inCross 0 0 (i : Int) (j : Int) = true := by
        simp only [inCross, Bool.decide_or, Bool.decide_and, Bool.or_eq_true, Bool.and_eq_true,
          decide_eq_true_eq]
        omega
      rw [cs, if_neg hnc] at hne
      exact hne rfl
    · intro hp
      have hi : i < 3 := by omega
      have hj : j < 3 := by omega
      refine ⟨⟨hi, hj⟩, ?_⟩
      obtain ⟨v, hv⟩ := hwf.cell_isSome (i := i) (j := j) (by omega) (by omega)
      have hc : inCross 0 0 (i : Int) (j : Int) = true := by
        simp only [inCross, Bool.decide_or, Bool.decide_and, Bool.or_eq_true, Bool.and_eq_true,
          decide_eq_true_eq]
        omega
      rw [cs, if_pos hc, hv]
      cases v <;> simp
  · intro h1 h2 h3 h4
    rw [hcard]
    have hall : ∀ p ∈ crossCoords r c, onBoard nrows ncols p = true := by
      intro p hp
      simp only [crossCoords, List.mem_cons, List.mem_singleton, List.not_mem_nil, or_false] at hp
      simp only [onBoard, decide_eq_true_eq]
      rcases hp with h | h | h | h | h <;> subst h <;> simp only <;> omega
    rw [List.filter_eq_self.2 hall]
    rfl

/-- Witness of C5: an interior toggle on a 3×3 board changes five cells. -/
theorem toggle_diff_count_witness :
    ∃ G', simulateFlip 3 3 (allFalse 3 3) 1 1 = some G' ∧
      (diffCells 3 3 (allFalse 3 3) G').card = 5 := by
  obtain ⟨G', e, -, -, -, h5⟩ :=
    toggle_diff_count 3 3 (allFalse 3 3) (by decide) 1 1
  exact ⟨G', e, h5 (by decide) (by decide) (by decide) (by decide)⟩

/-! ## The win test -/

theorem hasWon_eq_true_iff (G : Grid) :
    hasWon G = true ↔ ∀ row ∈ G, ∀ c ∈ row, c = false := by
  induction G with
  | nil => simp [hasWon]
  | cons row rest ih =>
    simp only [hasWon, List.mem_cons, forall_eq_or_imp]
    by_cases hc : row.contains true = true
    · rw [if_pos hc]
      have hm : true ∈ row := by simpa using hc
      constructor
      · intro h; exact absurd h (by decide)
      · intro h; exact absurd (h.1 true hm) (by decide)
    · rw [if_neg hc, ih]
      have hm : true ∉ row := by simpa using hc
      constructor
      · intro h
        refine ⟨?_, h⟩
        intro c hcm
        cases c with
        | false => rfl
        | true => exact absurd hcm hm
      · intro h; exact h.2

/-- C6: `hasWon` is true exactly when every cell of the board is `false`: it
is true on every all-false board, false on every board with a `true` cell, in
particular on an all-false board in which one cell was flipped. -/
theorem hasWon_iff_all_unlit (G : Grid) :
    (hasWon G = true ↔ ∀ row ∈ G, ∀ c ∈ row, c = false) ∧
    (hasWon G = false ↔ ∃ i j, Grid.cell G i j = some true) ∧
    (∀ nrows ncols : Nat, hasWon (allFalse nrows ncols) = true) ∧
    (∀ nrows ncols i j : Nat, i < nrows → j < ncols →
      hasWon ((allFalse nrows ncols).set i ((List.replicate ncols false).set j true)) = false) := by
  have key : ∀ A : Grid, hasWon A = false ↔ ∃ i j, Grid.cell A i j = some true := by
    intro A
    rw [← Bool.not_eq_true, hasWon_eq_true_iff]
    constructor
    · intro h
      by_contra hc
      apply h
      intro row hrow c hcm
      cases c with
      | false => rfl
      | true =>
        exfalso
        apply hc
        obtain ⟨i, hi⟩ := List.mem_iff_getElem?.1 hrow
        obtain ⟨j, hj⟩ := List.mem_iff_getElem?.1 hcm
        exact ⟨i, j, by simp [Grid.cell, hi, hj]⟩
    · rintro ⟨i, j, hij⟩ h
      unfold Grid.cell at hij
      cases hi : A[i]? with
      | none => simp [hi] at hij
      | some row =>
        simp only [hi] at hij
        have := h row (List.mem_iff_getElem?.2 ⟨i, hi⟩) true (List.mem_iff_getElem?.2 ⟨j, hij⟩)
        exact absurd this (by decide)
  refine ⟨hasWon_eq_true_iff G, key G, ?_, ?_⟩
  · intro nrows ncols
    rw [hasWon_eq_true_iff]
    intro row hrow c hc
    rw [allFalse, List.mem_replicate] at hrow
    rw [hrow.2, List.mem_replicate] at hc
    exact hc.2
  · intro nrows ncols i j hi hj
    rw [key]
    refine ⟨i, j, ?_⟩
    rw [Grid.cell_set _ _ _ _ _ (by simpa [allFalse] using hi), if_pos rfl, List.getElem?_set]
    simp [hj]

/-- Witness of C6: the centre cell of the all-false 3×3 board flipped. -/
theorem hasWon_iff_all_unlit_witness :
    hasWon ((allFalse 3 3).set 1 ((List.replicate 3 false).set 1 true)) = false :=
  (hasWon_iff_all_unlit []).2.2.2 3 3 1 1 (by decide) (by decide)

/-! ## Sequences of toggles -/

theorem applyMoves_append (nrows ncols : Int) (ms ms' : List (Int × Int)) (g : Grid) :
    applyMoves nrows ncols (ms ++ ms') g =
      (applyMoves nrows ncols ms g).bind (applyMoves nrows ncols ms') := by
  induction ms generalizing g with
  | nil => rfl
  | cons m rest ih =>
    obtain ⟨y, x⟩ := m
    simp only [List.cons_append, applyMoves]
    cases simulateFlip nrows ncols g y x with
    | none => rfl
    | some b => exact ih b

theorem applyMoves_single (nrows ncols : Int) (y x : Int) (g : Grid) :
    applyMoves nrows ncols [(y, x)] g = simulateFlip nrows ncols g y x := by
  simp only [applyMoves]
  cases simulateFlip nrows ncols g y x <;> rfl

theorem applyMoves_wf {nrows ncols : Int} (ms : List (Int × Int)) {g : Grid}
    (hwf : WellFormed nrows ncols g) :
    ∃ g', applyMoves nrows ncols ms g = some g' ∧ WellFormed nrows ncols g' := by
  induction ms generalizing g with
  | nil => exact ⟨g, rfl, hwf⟩
  | cons m rest ih =>
    obtain ⟨y, x⟩ := m
    obtain ⟨b, e, w, -⟩ := simulateFlip_spec hwf y x
    obtain ⟨g', e', w'⟩ := ih w
    exact ⟨g', by simp only [applyMoves, e, e'], w'⟩

theorem applyMoves_reverse {nrows ncols : Int} (ms : List (Int × Int)) {g g' : Grid}
    (hwf : WellFormed nrows ncols g) (h : applyMoves nrows ncols ms g = some g') :
    applyMoves nrows ncols ms.reverse g' = some g := by
  induction ms generalizing g with
  | nil =>
    simp only [applyMoves, Option.some.injEq] at h
    subst h; rfl
  | cons m rest ih =>
    obtain ⟨y, x⟩ := m
    obtain ⟨b, e, w, -⟩ := simulateFlip_spec hwf y x
    simp only [applyMoves, e] at h
    rw [List.reverse_cons, applyMoves_append, ih w h, Option.some_bind, applyMoves_single]
    exact simulateFlip_involutive hwf e

theorem playMoves_spec {nrows ncols : Int} (ms : List (Int × Int)) {h : Heap} {b : Nat}
    {G G' : Grid} (hd : h.deref b = some G) (hwf : WellFormed nrows ncols G)
    (hm : applyMoves nrows ncols ms G = some G') :
    ∃ h' b', playMoves nrows ncols ms h b = some (h', b') ∧ h'.deref b' = some G' := by
  induction ms generalizing h b G with
  | nil =>
    simp only [applyMoves, Option.some.injEq] at hm
    subst hm
    exact ⟨h, b, rfl, hd⟩
  | cons m rest ih =>
    obtain ⟨y, x⟩ := m
    obtain ⟨g1, e, w, -⟩ := simulateFlip_spec hwf y x
    obtain ⟨h1, b1, g1', hu, hs, hn, -⟩ := flipCellsAround.updater_spec hd hwf y x
    rw [e, Option.some.injEq] at hs
    subst hs
    simp only [applyMoves, e] at hm
    obtain ⟨h', b', hp, hd'⟩ := ih hn w hm
    exact ⟨h', b', by simp only [playMoves, hu, hp], hd'⟩

theorem allFalse_wf (n m : Nat) : WellFormed (n : Int) (m : Int) (allFalse n m) := by
  refine ⟨by simp [allFalse], ?_⟩
  intro row hrow
  rw [allFalse, List.mem_replicate] at hrow
  simp [hrow.2]

/-! ## Double precision -/

theorem IsDouble.zero : IsDouble 0 := ⟨0, 0, by norm_num, by norm_num, by norm_num, by simp⟩

theorem IsDouble.le_pred_one {u : ℚ} (hu : IsDouble u) (h1 : u < 1) :
    u ≤ 1 - 1 / 2 ^ 53 := by
  obtain ⟨m, e, hm, he1, he2, rfl⟩ := hu
  have hm' : m < 2 ^ 53 := (abs_lt.1 hm).2
  by_cases hneg : m ≤ 0
  · have : (m : ℚ) * (2 : ℚ) ^ e ≤ 0 :=
      mul_nonpos_of_nonpos_of_nonneg (by exact_mod_cast hneg) (by positivity)
    have : (0 : ℚ) ≤ 1 - 1 / 2 ^ 53 := by norm_num
    linarith
  push_neg at hneg
  by_cases he : 0 ≤ e
  · exfalso
    have h2 : (1 : ℚ) ≤ (2 : ℚ) ^ e := one_le_zpow₀ (by norm_num) he
    have h3 : (1 : ℚ) ≤ (m : ℚ) := by exact_mod_cast hneg
    nlinarith
  push_neg at he
  by_cases he53 : -53 ≤ e
  · -- m * 2^e = (m * 2^(e+53)) / 2^53 with an integer numerator
    obtain ⟨k, hk⟩ : ∃ k : ℕ, e + 53 = (k : Int) := ⟨(e + 53).toNat, by omega⟩
    have hpow : (2 : ℚ) ^ e = (2 : ℚ) ^ k / 2 ^ 53 := by
      have : e = (k : Int) - 53 := by omega
      rw [this, zpow_sub₀ (by norm_num : (2 : ℚ) ≠ 0), zpow_natCast]
      norm_num
    rw [hpow] at h1 ⊢
    have hlt : (m : ℚ) * 2 ^ k < 2 ^ 53 := by
      have := h1
      rw [← mul_div_assoc, div_lt_one (by positivity)] at this
      exact this
    have hlt' : m * 2 ^ k < 2 ^ 53 := by exact_mod_cast hlt
    have hle' : m * 2 ^ k ≤ 2 ^ 53 - 1 := by omega
    have hle : (m : ℚ) * 2 ^ k ≤ 2 ^ 53 - 1 := by exact_mod_cast hle'
    rw [← mul_div_assoc, div_le_iff₀ (by positivity)]
    calc (m : ℚ) * 2 ^ k ≤ 2 ^ 53 - 1 := hle
      _ = (1 - 1 / 2 ^ 53) * 2 ^ 53 := by norm_num
  · push_neg at he53
    have h2 : (2 : ℚ) ^ e ≤ (2 : ℚ) ^ (-54 : Int) :=
      zpow_le_zpow_right₀ (by norm_num) (by omega)
    have h3 : (m : ℚ) < 2 ^ 53 := by exact_mod_cast hm'
    have h4 : (0 : ℚ) < (2 : ℚ) ^ e := by positivity
    have h5 : (m : ℚ) * (2 : ℚ) ^ e ≤ 2 ^ 53 * (2 : ℚ) ^ (-54 : Int) := by
      apply mul_le_mul h3.le h2 h4.le (by positivity)
    have h6 : (2 : ℚ) ^ 53 * (2 : ℚ) ^ (-54 : Int) = 1 / 2 := by
      rw [zpow_neg]; norm_num
    rw [h6] at h5
    have : (1 : ℚ) / 2 ≤ 1 - 1 / 2 ^ 53 := by norm_num
    linarith

theorem exists_binade (n : Nat) (h1 : 1 ≤ n) (h2 : n ≤ 2 ^ 53) :
    ∃ j : Nat, j ≤ 53 ∧ n * 2 ^ j ≤ 2 ^ 53 ∧ 2 ^ 53 < n * 2 ^ (j + 1) := by
  have hP0 : n * 2 ^ 0 ≤ 2 ^ 53 := by simpa using h2
  have hspec : n * 2 ^ (Nat.findGreatest (fun j => n * 2 ^ j ≤ 2 ^ 53) 53) ≤ 2 ^ 53 :=
    @Nat.findGreatest_spec 0 (fun j => n * 2 ^ j ≤ 2 ^ 53) _ 53 (by norm_num) hP0
  have hle : Nat.findGreatest (fun j => n * 2 ^ j ≤ 2 ^ 53) 53 ≤ 53 := Nat.findGreatest_le 53
  refine ⟨_, hle, hspec, ?_⟩
  by_cases hlt : Nat.findGreatest (fun j => n * 2 ^ j ≤ 2 ^ 53) 53 < 53
  · have hno := @Nat.findGreatest_is_greatest
      (Nat.findGreatest (fun j => n * 2 ^ j ≤ 2 ^ 53) 53 + 1) (fun j => n * 2 ^ j ≤ 2 ^ 53) _ 53
      (Nat.lt_succ_self _) hlt
    exact Nat.lt_of_not_le hno
  · have heq : Nat.findGreatest (fun j => n * 2 ^ j ≤ 2 ^ 53) 53 = 53 := by omega
    rw [heq] at hspec ⊢
    have hn1 : n = 1 := by
      have : n ≤ 1 := by
        by_contra hc
        have h2n : 2 ≤ n := by omega
        have := Nat.mul_le_mul_right (2 ^ 53) h2n
        omega
      omega
    rw [hn1]
    norm_num

theorem nearest_product_bounds {u r : ℚ} {n : Nat} (hu : IsDouble u) (hu0 : 0 ≤ u) (hu1 : u < 1)
    (hn1 : 1 ≤ n) (hn2 : n ≤ 2 ^ 53) (hr : IsNearestDouble (u * (n : ℚ)) r) :
    0 ≤ r ∧ r < (n : ℚ) := by
  obtain ⟨-, hnear⟩ := hr
  have hnq : (1 : ℚ) ≤ (n : ℚ) := by exact_mod_cast hn1
  have hx0 : 0 ≤ u * (n : ℚ) := mul_nonneg hu0 (by linarith)
  constructor
  · by_contra hneg
    push_neg at hneg
    have h0 := hnear 0 IsDouble.zero
    rw [zero_sub, abs_neg, abs_of_nonneg hx0, abs_of_neg (by linarith)] at h0
    linarith
  · by_contra hge
    push_neg at hge
    obtain ⟨j, hj, hj1, hj2⟩ := exists_binade n hn1 hn2
    have hd : (0 : ℚ) < 1 / 2 ^ j := by positivity
    have hpred : IsDouble ((n : ℚ) - 1 / 2 ^ j) := by
      refine ⟨(n : Int) * 2 ^ j - 1, -(j : Int), ?_, by omega, by omega, ?_⟩
      · have hpos : (1 : Int) ≤ (n : Int) * 2 ^ j := by
          have : 1 ≤ n * 2 ^ j := Nat.mul_pos hn1 (by positivity)
          exact_mod_cast this
        have hle : (n : Int) * 2 ^ j ≤ 2 ^ 53 := by exact_mod_cast hj1
        rw [abs_of_nonneg (by omega)]
        omega
      · rw [zpow_neg, zpow_natCast]
        push_cast
        field_simp
    have hup : u ≤ 1 - 1 / 2 ^ 53 := hu.le_pred_one hu1
    have hxle : u * (n : ℚ) ≤ (n : ℚ) - (n : ℚ) / 2 ^ 53 := by
      have := mul_le_mul_of_nonneg_right hup (by linarith : (0 : ℚ) ≤ (n : ℚ))
      calc u * (n : ℚ) ≤ (1 - 1 / 2 ^ 53) * (n : ℚ) := this
        _ = (n : ℚ) - (n : ℚ) / 2 ^ 53 := by ring
    have hgap : (1 : ℚ) / 2 ^ j < 2 * ((n : ℚ) / 2 ^ 53) := by
      have h0 : ((2 : ℚ) ^ 53) < (n : ℚ) * 2 ^ (j + 1) := by exact_mod_cast hj2
      have h : ((2 : ℚ) ^ 53) < (n : ℚ) * (2 ^ j * 2) := by
        calc ((2 : ℚ) ^ 53) < (n : ℚ) * 2 ^ (j + 1) := h0
          _ = (n : ℚ) * (2 ^ j * 2) := by ring
      have h53 : (0 : ℚ) < 2 ^ 53 := by positivity
      have hjp : (0 : ℚ) < 2 ^ j := by positivity
      rw [div_lt_iff₀ hjp]
      calc (1 : ℚ) = 2 ^ 53 / 2 ^ 53 := by field_simp
        _ < ((n : ℚ) * (2 ^ j * 2)) / 2 ^ 53 := by
            apply div_lt_div_of_pos_right h h53
        _ = 2 * ((n : ℚ) / 2 ^ 53) * 2 ^ j := by ring
    have h1 := hnear _ hpred
    have hlhs : (n : ℚ) - u * (n : ℚ) ≤ |r - u * (n : ℚ)| := by
      rw [abs_of_nonneg (by linarith)]
      linarith
    have hrhs : |(n : ℚ) - 1 / 2 ^ j - u * (n : ℚ)| < (n : ℚ) - u * (n : ℚ) := by
      rw [abs_lt]
      constructor <;> linarith
    linarith

theorem floor_nearest_product {u r : ℚ} {n : Nat} (hu : IsDouble u) (hu0 : 0 ≤ u) (hu1 : u < 1)
    (hn1 : 1 ≤ n) (hn2 : n ≤ 2 ^ 53) (hr : IsNearestDouble (u * (n : ℚ)) r) :
    0 ≤ ⌊r⌋ ∧ ⌊r⌋ < (n : Int) := by
  obtain ⟨h0, h1⟩ := nearest_product_bounds hu hu0 hu1 hn1 hn2 hr
  exact ⟨Int.floor_nonneg.2 h0, Int.floor_lt.2 (by exact_mod_cast h1)⟩

theorem roundHalfEven_cases (q : ℚ) :
    (roundHalfEven q = ⌊q⌋ ∧ q - ⌊q⌋ ≤ 1 / 2) ∨ (roundHalfEven q = ⌊q⌋ + 1 ∧ 1 / 2 ≤ q - ⌊q⌋) := by
  unfold roundHalfEven
  split_ifs with h1 h2 h3
  · left; exact ⟨rfl, h1.le⟩
  · right; exact ⟨rfl, h2.le⟩
  · left; exact ⟨rfl, not_lt.1 h2⟩
  · right; exact ⟨rfl, not_lt.1 h1⟩

theorem roundHalfEven_intCast (k : Int) : roundHalfEven (k : ℚ) = k := by
  unfold roundHalfEven
  simp

theorem binade_ge (q : ℚ) : -1022 ≤ binade q := le_max_right _ _

theorem lt_zpow_binade {x : ℚ} (hx : 0 ≤ x) : x < (2 : ℚ) ^ (binade x + 1) := by
  have h1 : |x| < ((2 : ℕ) : ℚ) ^ (Int.log 2 |x| + 1) := Int.lt_zpow_succ_log_self (by norm_num) _
  rw [abs_of_nonneg hx] at h1
  have h2 : ((2 : ℕ) : ℚ) ^ (Int.log 2 x + 1) ≤ (2 : ℚ) ^ (binade x + 1) := by
    rw [Nat.cast_ofNat]
    apply zpow_le_zpow_right₀ (by norm_num)
    have := le_max_left (Int.log 2 |x|) (-1022)
    rw [abs_of_nonneg hx] at this
    unfold binade
    rw [abs_of_nonneg hx]
    omega
  linarith

theorem zpow_binade_le {x : ℚ} (hx : 0 < x) (h : binade x ≠ -1022) :
    (2 : ℚ) ^ binade x ≤ x := by
  have h1 : ((2 : ℕ) : ℚ) ^ Int.log 2 |x| ≤ |x| := Int.zpow_log_le_self (by norm_num) (abs_pos.2 hx.ne')
  have hb : binade x = Int.log 2 |x| := by
    unfold binade at h ⊢
    rcases max_cases (Int.log 2 |x|) (-1022) with ⟨h2, _⟩ | ⟨h2, _⟩
    · exact h2
    · exact absurd h2 h
  rw [hb]
  rw [Nat.cast_ofNat, abs_of_pos hx] at h1
  rw [abs_of_pos hx]
  exact h1

theorem binade_eq {x : ℚ} {e : Int} (he : -1022 ≤ e) (h1 : (2 : ℚ) ^ e ≤ x)
    (h2 : x < (2 : ℚ) ^ (e + 1)) : binade x = e := by
  have hx : 0 < x := lt_of_lt_of_le (by positivity) h1
  have hlog : Int.log 2 |x| = e := by
    rw [abs_of_pos hx]
    apply le_antisymm
    · have := (Int.lt_zpow_iff_log_lt (R := ℚ) (b := 2) (by norm_num) hx (x := e + 1)).1
        (by rw [Nat.cast_ofNat]; exact h2)
      omega
    · exact (Int.zpow_le_iff_le_log (R := ℚ) (b := 2) (by norm_num) hx).1
        (by rw [Nat.cast_ofNat]; exact h1)
  unfold binade
  rw [hlog]
  exact max_eq_left he

theorem two_pow_mul_zpow (a : ℕ) (e : Int) :
    (2 : ℚ) ^ a * (2 : ℚ) ^ (e - (a : Int)) = (2 : ℚ) ^ e := by
  rw [← zpow_natCast, ← zpow_add₀ (by norm_num : (2 : ℚ) ≠ 0)]
  congr 1
  ring

theorem binade_zero : binade 0 = 0 := by
  unfold binade
  simp [Int.log_of_right_le_zero]

theorem roundDouble_zero : roundDouble 0 = 0 := by
  unfold roundDouble
  simp [roundHalfEven]

theorem IsDouble.multiple {r : ℚ} (hr : IsDouble r) {e : Int}
    (h : (2 : ℚ) ^ e ≤ |r| ∨ e = -1022) : ∃ k : Int, r = (k : ℚ) * (2 : ℚ) ^ (e - 52) := by
  obtain ⟨m, j, hm, hj1, hj2, rfl⟩ := hr
  have hcase : e - 52 ≤ j := by
    rcases h with h | h
    · by_contra hlt
      push_neg at hlt
      have hj : j ≤ e - 53 := by omega
      have h2 : (2 : ℚ) ^ j ≤ (2 : ℚ) ^ (e - 53) := zpow_le_zpow_right₀ (by norm_num) hj
      have hm' : |(m : ℚ)| < 2 ^ 53 := by exact_mod_cast hm
      have hpos : (0 : ℚ) < (2 : ℚ) ^ j := by positivity
      have h3 : |(m : ℚ) * (2 : ℚ) ^ j| < 2 ^ 53 * (2 : ℚ) ^ (e - 53) := by
        rw [abs_mul, abs_of_pos hpos]
        calc |(m : ℚ)| * (2 : ℚ) ^ j ≤ |(m : ℚ)| * (2 : ℚ) ^ (e - 53) :=
              mul_le_mul_of_nonneg_left h2 (abs_nonneg _)
          _ < 2 ^ 53 * (2 : ℚ) ^ (e - 53) :=
              mul_lt_mul_of_pos_right hm' (by positivity)
      have h4 : (2 : ℚ) ^ 53 * (2 : ℚ) ^ (e - 53) = (2 : ℚ) ^ e :=
        two_pow_mul_zpow 53 e
      rw [h4] at h3
      linarith
    · omega
  obtain ⟨d, hd⟩ : ∃ d : ℕ, j - (e - 52) = (d : Int) := ⟨(j - (e - 52)).toNat, by omega⟩
  refine ⟨m * 2 ^ d, ?_⟩
  have hj : j = (d : Int) + (e - 52) := by omega
  rw [hj, zpow_add₀ (by norm_num : (2 : ℚ) ≠ 0), zpow_natCast]
  push_cast
  ring

theorem roundDouble_isNearest_of_pos {x : ℚ} (hpos : 0 < x) (hx1 : x < (2 : ℚ) ^ (1023 : Int)) :
    IsNearestDouble x (roundDouble x) := by
  have hx0 : 0 ≤ x := hpos.le
  have he1 : -1022 ≤ binade x := binade_ge x
  have hulp : (0 : ℚ) < (2 : ℚ) ^ (binade x - 52) := by positivity
  have hlt := lt_zpow_binade hx0
  have he2 : binade x ≤ 1022 := by
    by_contra hc
    push_neg at hc
    have hne : binade x ≠ -1022 := by omega
    have h1 := zpow_binade_le hpos hne
    have h2 : (2 : ℚ) ^ (1023 : Int) ≤ (2 : ℚ) ^ binade x :=
      zpow_le_zpow_right₀ (by norm_num) (by omega)
    linarith
  -- the scaled value
  have ht0 : 0 ≤ x / (2 : ℚ) ^ (binade x - 52) := div_nonneg hx0 hulp.le
  have ht1 : x / (2 : ℚ) ^ (binade x - 52) < 2 ^ 53 := by
    rw [div_lt_iff₀ hulp]
    have : (2 : ℚ) ^ 53 * (2 : ℚ) ^ (binade x - 52) = (2 : ℚ) ^ (binade x + 1) := by
      have h := two_pow_mul_zpow 53 (binade x + 1)
      rw [show binade x + 1 - ((53 : ℕ) : Int) = binade x - 52 by push_cast; ring] at h
      exact h
    rw [this]
    exact hlt
  have hf0 : 0 ≤ ⌊x / (2 : ℚ) ^ (binade x - 52)⌋ := Int.floor_nonneg.2 ht0
  have hf1 : ⌊x / (2 : ℚ) ^ (binade x - 52)⌋ < 2 ^ 53 := Int.floor_lt.2 (by exact_mod_cast ht1)
  have hfle := Int.floor_le (x / (2 : ℚ) ^ (binade x - 52))
  have hflt := Int.lt_floor_add_one (x / (2 : ℚ) ^ (binade x - 52))
  have hxeq : x = x / (2 : ℚ) ^ (binade x - 52) * (2 : ℚ) ^ (binade x - 52) := by
    field_simp
  -- no double lies strictly between the two neighbours on the grid
  have hgap : ∀ r', IsDouble r' →
      r' ≤ (⌊x / (2 : ℚ) ^ (binade x - 52)⌋ : ℚ) * (2 : ℚ) ^ (binade x - 52) ∨
      ((⌊x / (2 : ℚ) ^ (binade x - 52)⌋ : ℚ) + 1) * (2 : ℚ) ^ (binade x - 52) ≤ r' := by
    intro r' hr'
    by_contra hc
    push_neg at hc
    obtain ⟨hc1, hc2⟩ := hc
    have hmul : ∃ k : Int, r' = (k : ℚ) * (2 : ℚ) ^ (binade x - 52) := by
      apply hr'.multiple
      by_cases hsub : binade x = -1022
      · right; exact hsub
      · left
        have h1 := zpow_binade_le hpos hsub
        -- the lower neighbour is at least 2 ^ binade
        have h52 : (2 : ℚ) ^ 52 ≤ x / (2 : ℚ) ^ (binade x - 52) := by
          rw [le_div_iff₀ hulp]
          have : (2 : ℚ) ^ 52 * (2 : ℚ) ^ (binade x - 52) = (2 : ℚ) ^ binade x :=
            two_pow_mul_zpow 52 (binade x)
          rw [this]
          exact h1
        have hfl : (2 : ℚ) ^ 52 ≤ (⌊x / (2 : ℚ) ^ (binade x - 52)⌋ : ℚ) := by
          have : (2 ^ 52 : Int) ≤ ⌊x / (2 : ℚ) ^ (binade x - 52)⌋ :=
            Int.le_floor.2 (by push_cast; exact h52)
          exact_mod_cast this
        have hlow : (2 : ℚ) ^ binade x ≤
            (⌊x / (2 : ℚ) ^ (binade x - 52)⌋ : ℚ) * (2 : ℚ) ^ (binade x - 52) := by
          rw [← two_pow_mul_zpow 52 (binade x)]
          exact mul_le_mul_of_nonneg_right hfl hulp.le
        have hr'pos : 0 < r' := lt_of_lt_of_le (by positivity) (hlow.trans hc1.le)
        rw [abs_of_pos hr'pos]
        exact hlow.trans hc1.le
    obtain ⟨k, rfl⟩ := hmul
    have h1 : (⌊x / (2 : ℚ) ^ (binade x - 52)⌋ : ℚ) < (k : ℚ) := lt_of_mul_lt_mul_right hc1 hulp.le
    have h2 : (k : ℚ) < (⌊x / (2 : ℚ) ^ (binade x - 52)⌋ : ℚ) + 1 :=
      lt_of_mul_lt_mul_right hc2 hulp.le
    have h1' : ⌊x / (2 : ℚ) ^ (binade x - 52)⌋ < k := by exact_mod_cast h1
    have h2' : k < ⌊x / (2 : ℚ) ^ (binade x - 52)⌋ + 1 := by exact_mod_cast h2
    omega
  -- distance of the rounded value
  have hdist : |roundDouble x - x| ≤
        x - (⌊x / (2 : ℚ) ^ (binade x - 52)⌋ : ℚ) * (2 : ℚ) ^ (binade x - 52) ∧
      |roundDouble x - x| ≤
        ((⌊x / (2 : ℚ) ^ (binade x - 52)⌋ : ℚ) + 1) * (2 : ℚ) ^ (binade x - 52) - x := by
    have hrw : roundDouble x - x =
        ((roundHalfEven (x / (2 : ℚ) ^ (binade x - 52)) : ℚ) - x / (2 : ℚ) ^ (binade x - 52))
          * (2 : ℚ) ^ (binade x - 52) := by
      unfold roundDouble
      rw [sub_mul, div_mul_cancel₀ _ hulp.ne']
    have hlo : x - (⌊x / (2 : ℚ) ^ (binade x - 52)⌋ : ℚ) * (2 : ℚ) ^ (binade x - 52) =
        (x / (2 : ℚ) ^ (binade x - 52) - (⌊x / (2 : ℚ) ^ (binade x - 52)⌋ : ℚ))
          * (2 : ℚ) ^ (binade x - 52) := by
      rw [sub_mul, div_mul_cancel₀ _ hulp.ne']
    have hhi : ((⌊x / (2 : ℚ) ^ (binade x - 52)⌋ : ℚ) + 1) * (2 : ℚ) ^ (binade x - 52) - x =
        ((⌊x / (2 : ℚ) ^ (binade x - 52)⌋ : ℚ) + 1 - x / (2 : ℚ) ^ (binade x - 52))
          * (2 : ℚ) ^ (binade x - 52) := by
      rw [sub_mul, div_mul_cancel₀ _ hulp.ne']
    rw [hrw, hlo, hhi, abs_mul, abs_of_pos hulp]
    rcases roundHalfEven_cases (x / (2 : ℚ) ^ (binade x - 52)) with ⟨hk, hh⟩ | ⟨hk, hh⟩
    · rw [hk]
      have habs : |(⌊x / (2 : ℚ) ^ (binade x - 52)⌋ : ℚ) - x / (2 : ℚ) ^ (binade x - 52)| =
          x / (2 : ℚ) ^ (binade x - 52) - (⌊x / (2 : ℚ) ^ (binade x - 52)⌋ : ℚ) := by
        rw [abs_sub_comm, abs_of_nonneg (by linarith)]
      rw [habs]
      constructor
      · exact le_refl _
      · apply mul_le_mul_of_nonneg_right _ hulp.le
        linarith
    · rw [hk]
      have habs : |((⌊x / (2 : ℚ) ^ (binade x - 52)⌋ + 1 : Int) : ℚ)
            - x / (2 : ℚ) ^ (binade x - 52)| =
          (⌊x / (2 : ℚ) ^ (binade x - 52)⌋ : ℚ) + 1 - x / (2 : ℚ) ^ (binade x - 52) := by
        push_cast
        rw [abs_of_nonneg (by linarith)]
      rw [habs]
      constructor
      · apply mul_le_mul_of_nonneg_right _ hulp.le
        linarith
      · exact le_refl _
  refine ⟨?_, ?_⟩
  · -- the rounded value is a double
    have hk0 : 0 ≤ roundHalfEven (x / (2 : ℚ) ^ (binade x - 52)) := by
      rcases roundHalfEven_cases (x / (2 : ℚ) ^ (binade x - 52)) with ⟨hk, -⟩ | ⟨hk, -⟩ <;>
        rw [hk] <;> omega
    have hk1 : roundHalfEven (x / (2 : ℚ) ^ (binade x - 52)) ≤ 2 ^ 53 := by
      rcases roundHalfEven_cases (x / (2 : ℚ) ^ (binade x - 52)) with ⟨hk, -⟩ | ⟨hk, -⟩ <;>
        rw [hk] <;> omega
    by_cases htop : roundHalfEven (x / (2 : ℚ) ^ (binade x - 52)) = 2 ^ 53
    · refine ⟨2 ^ 52, binade x - 51, by norm_num, by omega, by omega, ?_⟩
      unfold roundDouble
      rw [htop]
      have : (2 : ℚ) ^ (binade x - 51) = 2 * (2 : ℚ) ^ (binade x - 52) := by
        rw [show binade x - 51 = 1 + (binade x - 52) by ring,
          zpow_add₀ (by norm_num : (2 : ℚ) ≠ 0), zpow_one]
      rw [this]
      push_cast
      ring
    · refine ⟨roundHalfEven (x / (2 : ℚ) ^ (binade x - 52)), binade x - 52, ?_, by omega,
        by omega, by rw [roundDouble]⟩
      rw [abs_of_nonneg hk0]
      omega
  · intro r' hr'
    rcases hgap r' hr' with h | h
    · calc |roundDouble x - x| ≤ _ := hdist.1
        _ ≤ x - r' := by linarith
        _ ≤ |r' - x| := by rw [abs_sub_comm]; exact le_abs_self _
    · calc |roundDouble x - x| ≤ _ := hdist.2
        _ ≤ r' - x := by linarith
        _ ≤ |r' - x| := le_abs_self _


theorem roundDouble_isNearest {x : ℚ} (hx0 : 0 ≤ x) (hx1 : x < (2 : ℚ) ^ (1023 : Int)) :
    IsNearestDouble x (roundDouble x) := by
  rcases hx0.lt_or_eq with h | h
  · exact roundDouble_isNearest_of_pos h hx1
  · rw [← h, roundDouble_zero]
    exact ⟨IsDouble.zero, fun r' _ => by simp⟩

theorem roundDouble_of_isDouble {x : ℚ} (hd : IsDouble x) (hx0 : 0 ≤ x)
    (hx1 : x < (2 : ℚ) ^ (1023 : Int)) : roundDouble x = x := by
  have h := (roundDouble_isNearest hx0 hx1).2 x hd
  rw [sub_self, abs_zero] at h
  have := abs_nonneg (roundDouble x - x)
  have h0 : |roundDouble x - x| = 0 := le_antisymm h this
  rw [abs_eq_zero, sub_eq_zero] at h0
  exact h0

theorem IsDouble.natCast {n : Nat} (hn : n ≤ 2 ^ 53) : IsDouble (n : ℚ) := by
  by_cases h : n = 2 ^ 53
  · refine ⟨2 ^ 52, 1, by norm_num, by norm_num, by norm_num, ?_⟩
    rw [h]
    norm_num
  · refine ⟨(n : Int), 0, ?_, by norm_num, by norm_num, by simp⟩
    rw [abs_of_nonneg (by omega)]
    have : n < 2 ^ 53 := lt_of_le_of_ne hn h
    exact_mod_cast this

theorem roundDouble_natCast {n : Nat} (hn : n ≤ 2 ^ 53) : roundDouble (n : ℚ) = (n : ℚ) := by
  apply roundDouble_of_isDouble (IsDouble.natCast hn) (by positivity)
  have h1 : (n : ℚ) ≤ 2 ^ 53 := by exact_mod_cast hn
  have h2 : (2 : ℚ) ^ 53 < (2 : ℚ) ^ (1023 : Int) := by
    rw [← zpow_natCast]
    exact zpow_lt_zpow_right₀ (by norm_num) (by norm_num)
  linarith

theorem floor_roundDouble_product {u : ℚ} {n : Int} (hu : IsDouble u) (hu0 : 0 ≤ u)
    (hu1 : u < 1) (hn1 : 1 ≤ n) (hn2 : n ≤ 2 ^ 53) :
    0 ≤ ⌊roundDouble (u * (n : ℚ))⌋ ∧ ⌊roundDouble (u * (n : ℚ))⌋ < n := by
  obtain ⟨k, rfl⟩ : ∃ k : Nat, n = (k : Int) := ⟨n.toNat, by omega⟩
  have hk1 : 1 ≤ k := by omega
  have hk2 : k ≤ 2 ^ 53 := by exact_mod_cast hn2
  rw [Int.cast_natCast]
  have hkq : (k : ℚ) ≤ 2 ^ 53 := by exact_mod_cast hk2
  have hx0 : 0 ≤ u * (k : ℚ) := mul_nonneg hu0 (by positivity)
  have hx1 : u * (k : ℚ) < (2 : ℚ) ^ (1023 : Int) := by
    have h1 : u * (k : ℚ) ≤ 1 * (k : ℚ) := mul_le_mul_of_nonneg_right hu1.le (by positivity)
    have h2 : (2 : ℚ) ^ 53 < (2 : ℚ) ^ (1023 : Int) := by
      rw [← zpow_natCast]
      exact zpow_lt_zpow_right₀ (by norm_num) (by norm_num)
    linarith
  exact floor_nearest_product hu hu0 hu1 hk1 hk2 (roundDouble_isNearest hx0 hx1)

/-- The product `0.5714285714285714 * 7`: its double is `4` and its exact floor is `3`. -/
theorem roundDouble_example_tie_up :
    roundDouble ((2573485501354569 / 4503599627370496 : ℚ) * 7) = 4 ∧
      ⌊(2573485501354569 / 4503599627370496 : ℚ) * 7⌋ = 3 := by
  constructor
  · have hb : binade ((2573485501354569 / 4503599627370496 : ℚ) * 7) = 1 :=
      binade_eq (by norm_num) (by norm_num) (by norm_num)
    unfold roundDouble
    rw [hb]
    have hq : (2573485501354569 / 4503599627370496 : ℚ) * 7 / (2 : ℚ) ^ ((1 : Int) - 52)
        = 18014398509481983 / 2 := by
      rw [show ((1 : Int) - 52) = -51 by norm_num, zpow_neg]
      norm_num
    rw [hq]
    have hfl : ⌊(18014398509481983 / 2 : ℚ)⌋ = 9007199254740991 := by
      rw [Int.floor_eq_iff]
      constructor <;> norm_num
    have hr : roundHalfEven (18014398509481983 / 2 : ℚ) = 9007199254740992 := by
      unfold roundHalfEven
      rw [hfl]
      norm_num
    rw [hr, show ((1 : Int) - 52) = -51 by norm_num, zpow_neg]
    norm_num
  · rw [Int.floor_eq_iff]
    constructor <;> norm_num

/-- The integer `2 ^ 53 + 1` is not a double: it rounds to `2 ^ 53`. -/
theorem roundDouble_example_53 : roundDouble 9007199254740993 = 9007199254740992 := by
  have hb : binade (9007199254740993 : ℚ) = 53 :=
    binade_eq (by norm_num) (by norm_num) (by norm_num)
  unfold roundDouble
  rw [hb]
  have hq : (9007199254740993 : ℚ) / (2 : ℚ) ^ ((53 : Int) - 52) = 9007199254740993 / 2 := by
    norm_num
  rw [hq]
  have hfl : ⌊(9007199254740993 / 2 : ℚ)⌋ = 4503599627370496 := by
    rw [Int.floor_eq_iff]
    constructor <;> norm_num
  have hr : roundHalfEven (9007199254740993 / 2 : ℚ) = 4503599627370496 := by
    unfold roundHalfEven
    rw [hfl]
    norm_num
  rw [hr]
  norm_num

/-! ## The loops of `createBoard` -/

theorem seedStep_eq (nrows ncols : Int) (draws : Nat → ℚ) (g : Grid) (p : Nat) :
    createBoard.seedStep nrows ncols draws (g, p) =
      (simulateFlip nrows ncols g ⌊roundDouble (draws p * (nrows : ℚ))⌋
        ⌊roundDouble (draws (p + 1) * (ncols : ℚ))⌋).map (fun b => (b, p + 2)) := by
  unfold createBoard.seedStep
  dsimp only
  cases simulateFlip nrows ncols g ⌊roundDouble (draws p * (nrows : ℚ))⌋
        ⌊roundDouble (draws (p + 1) * (ncols : ℚ))⌋ <;> rfl

theorem seedLoop_eq (nrows ncols : Int) (draws : Nat → ℚ) (n : Nat) (b : Grid) (p : Nat) :
    (List.range n).foldlM (fun s _ => createBoard.seedStep nrows ncols draws s) (b, p) =
      (applyMoves nrows ncols
        ((List.range n).map (fun (i : Nat) =>
          ((⌊roundDouble (draws (p + 2 * i) * (nrows : ℚ))⌋ : Int),
            (⌊roundDouble (draws (p + 2 * i + 1) * (ncols : ℚ))⌋ : Int))))
        b).map (fun g => (g, p + 2 * n)) := by
  induction n with
  | zero =>
    simp only [List.range_zero, List.foldlM_nil, List.map_nil, applyMoves, Option.map_some',
      Option.pure_def, Nat.mul_zero, Nat.add_zero]
  | succ n ih =>
    rw [List.range_succ, List.foldlM_append, ih, List.map_append, applyMoves_append]
    cases applyMoves nrows ncols _ b with
    | none => simp only [Option.map_none', Option.bind_eq_bind, Option.none_bind]
    | some g =>
      simp only [Option.map_some', Option.bind_eq_bind, Option.some_bind, List.foldlM_cons,
        List.foldlM_nil, List.map_cons, List.map_nil, applyMoves_single, seedStep_eq]
      cases simulateFlip nrows ncols g _ _ with
      | none => simp only [Option.none_bind, Option.map_none']
      | some g1 =>
        simp only [Option.some_bind, Option.pure_def, Option.map_some', Option.some.injEq,
          Prod.mk.injEq, true_and]
        omega

theorem lightRow_eq (nrows ncols : Int) (chance : ℚ) (draws : Nat → ℚ) (y m : Nat) (b : Grid)
    (p : Nat) :
    (List.range m).foldlM
        (fun s x => createBoard.lightStep nrows ncols chance draws y x s) (b, p) =
      (applyMoves nrows ncols
        (((List.range m).filter (fun (x : Nat) => draws (p + x) < chance)).map
          (fun (x : Nat) => ((y : Int), (x : Int)))) b).map (fun g => (g, p + m)) := by
  induction m with
  | zero => rfl
  | succ m ih =>
    rw [List.range_succ, List.foldlM_append, ih, List.filter_append, List.map_append,
      applyMoves_append]
    cases applyMoves nrows ncols _ b with
    | none => rfl
    | some g =>
      simp only [Option.map_some', Option.bind_eq_bind, Option.some_bind, List.foldlM_cons,
        List.foldlM_nil, createBoard.lightStep, List.filter_singleton]
      by_cases hc : draws (p + m) < chance
      · simp only [hc, if_true, decide_True, cond_true, List.map_cons, List.map_nil,
          applyMoves_single]
        cases simulateFlip nrows ncols g _ _ with
        | none => rfl
        | some g1 => rfl
      · simp only [hc, if_false, decide_False, cond_false, List.map_nil, applyMoves,
          Option.some_bind, Option.pure_def, Option.map_some']
        rfl

theorem lightLoop_eq (nrows ncols : Int) (chance : ℚ) (draws : Nat → ℚ) (m n : Nat) (b : Grid)
    (p : Nat) :
    (List.range n).foldlM
        (fun s y => (List.range m).foldlM
          (fun s x => createBoard.lightStep nrows ncols chance draws y x s) s) (b, p) =
      (applyMoves nrows ncols
        (((List.range (n * m)).filter (fun (k : Nat) => draws (p + k) < chance)).map
          (fun (k : Nat) => (((k / m : Nat) : Int), ((k % m : Nat) : Int)))) b).map
        (fun g => (g, p + n * m)) := by
  induction n with
  | zero => simp [applyMoves]
  | succ n ih =>
    have hsplit : List.range ((n + 1) * m) =
        List.range (n * m) ++ List.map (fun (x : Nat) => n * m + x) (List.range m) := by
      rw [Nat.succ_mul, List.range_add]
    rw [List.range_succ, List.foldlM_append, ih, hsplit, List.filter_append, List.map_append,
      applyMoves_append]
    cases applyMoves nrows ncols _ b with
    | none => rfl
    | some g =>
      simp only [Option.map_some', Option.bind_eq_bind, Option.some_bind, List.foldlM_cons,
        List.foldlM_nil]
      have hbind : ∀ o : Option GenState, (o.bind fun init => pure init) = o := by
        intro o; cases o <;> rfl
      rw [hbind, lightRow_eq, List.filter_map, List.map_map]
      have hfilter : (List.range m).filter
            ((fun (k : Nat) => decide (draws (p + k) < chance)) ∘ fun (x : Nat) => n * m + x) =
          (List.range m).filter (fun (x : Nat) => draws (p + n * m + x) < chance) := by
        congr 1
        funext x
        simp only [Function.comp, Nat.add_assoc]
      rw [hfilter]
      have hmap : List.map ((fun (k : Nat) => (((k / m : Nat) : Int), ((k % m : Nat) : Int))) ∘
            fun (x : Nat) => n * m + x)
            ((List.range m).filter (fun (x : Nat) => draws (p + n * m + x) < chance)) =
          List.map (fun (x : Nat) => ((n : Int), (x : Int)))
            ((List.range m).filter (fun (x : Nat) => draws (p + n * m + x) < chance)) := by
        apply List.map_congr_left
        intro x hx
        have hxm : x < m := List.mem_range.1 (List.mem_filter.1 hx).1
        have hm0 : 0 < m := by omega
        have h1 : (n * m + x) / m = n := by
          rw [Nat.mul_comm n m, Nat.mul_add_div hm0, Nat.div_eq_of_lt hxm, Nat.add_zero]
        have h2 : (n * m + x) % m = x := by
          rw [Nat.mul_comm n m, Nat.mul_add_mod, Nat.mod_eq_of_lt hxm]
        simp only [Function.comp, h1, h2]
      rw [hmap]
      cases applyMoves nrows ncols _ g with
      | none => rfl
      | some g1 =>
        simp only [Option.map_some', Option.some.injEq, Prod.mk.injEq, true_and]
        rw [Nat.succ_mul]; omega

theorem toNat_mul_toNat {a b : Int} (ha : 0 ≤ a) (hb : 0 ≤ b) :
    (a * b).toNat = a.toNat * b.toNat := by
  lift a to ℕ using ha
  lift b to ℕ using hb
  norm_cast

theorem roundDouble_intCast {n : Int} (h0 : 0 ≤ n) (h1 : n ≤ 2 ^ 53) :
    roundDouble (n : ℚ) = (n : ℚ) := by
  obtain ⟨k, rfl⟩ : ∃ k : Nat, n = (k : Int) := ⟨n.toNat, by omega⟩
  rw [Int.cast_natCast]
  exact roundDouble_natCast (by exact_mod_cast h1)

theorem createBoard_eq (nrows ncols : Int) (chance : ℚ) (draws : Nat → ℚ) :
    createBoard nrows ncols chance draws =
      if nrows < 0 ∨ 2 ^ 32 ≤ nrows then none
      else if 0 < nrows ∧ (ncols < 0 ∨ 2 ^ 32 ≤ ncols) then none
      else if 2 ^ 53 < roundDouble (((nrows * ncols : Int) : ℚ)) then none
      else (applyMoves nrows ncols
        (seedMoves nrows ncols draws ⌊roundDouble (((nrows * ncols : Int) : ℚ))⌋.toNat ++
          lightMoves nrows ncols chance draws
            (2 * ⌊roundDouble (((nrows * ncols : Int) : ℚ))⌋.toNat))
        (allFalse nrows.toNat ncols.toNat)).map
          (fun g => (g, 2 * ⌊roundDouble (((nrows * ncols : Int) : ℚ))⌋.toNat
            + nrows.toNat * ncols.toNat)) := by
  unfold createBoard
  by_cases h1 : nrows < 0 ∨ 2 ^ 32 ≤ nrows
  · rw [if_pos h1, if_pos h1]
  rw [if_neg h1, if_neg h1]
  by_cases h2 : 0 < nrows ∧ (ncols < 0 ∨ 2 ^ 32 ≤ ncols)
  · rw [if_pos h2, if_pos h2]
  rw [if_neg h2, if_neg h2]
  by_cases h3 : 2 ^ 53 < roundDouble (((nrows * ncols : Int) : ℚ))
  · rw [if_pos h3, if_pos h3]
  rw [if_neg h3, if_neg h3]
  simp only [Option.bind_eq_bind]
  rw [seedLoop_eq, applyMoves_append]
  simp only [Nat.zero_add, allFalse, seedMoves, lightMoves]
  cases applyMoves nrows ncols _ _ with
  | none => simp only [Option.map_none', Option.none_bind]
  | some g =>
    simp only [Option.map_some', Option.some_bind]
    rw [lightLoop_eq]

/-- The first seed coordinate of a 7×1 board for the draw `0.5714285714285714`:
row `4`, where the exact product has floor `3`. -/
theorem seedMoves_example :
    seedMoves 7 1 (fun _ => 2573485501354569 / 4503599627370496) 1 = [(4, 0)] := by
  have hrange : List.range 1 = [0] := by decide
  have hd : IsDouble (2573485501354569 / 4503599627370496 : ℚ) :=
    ⟨2573485501354569, -52, by norm_num, by norm_num, by norm_num, by
      rw [zpow_neg]; norm_num⟩
  have h1 : roundDouble ((2573485501354569 / 4503599627370496 : ℚ) * ((7 : Int) : ℚ)) = 4 := by
    have := roundDouble_example_tie_up.1
    rw [show ((7 : Int) : ℚ) = 7 by norm_num]
    exact this
  have h2 : roundDouble ((2573485501354569 / 4503599627370496 : ℚ) * ((1 : Int) : ℚ))
      = 2573485501354569 / 4503599627370496 := by
    rw [Int.cast_one, mul_one]
    exact roundDouble_of_isDouble hd (by norm_num)
      (lt_of_lt_of_le (by norm_num : (2573485501354569 / 4503599627370496 : ℚ) < 1)
        (one_le_zpow₀ (by norm_num) (by norm_num)))
  simp only [seedMoves, hrange, List.map_cons, List.map_nil, h1, h2]
  have h3 : ⌊(4 : ℚ)⌋ = 4 := by
    rw [Int.floor_eq_iff]; constructor <;> norm_num
  have h4 : ⌊(2573485501354569 / 4503599627370496 : ℚ)⌋ = 0 := by
    rw [Int.floor_eq_iff]; constructor <;> norm_num
  rw [h3, h4]

theorem specSeedMoves_eq (nrows ncols : Int) (draws : Nat → ℚ) :
    specSeedMoves nrows ncols draws = seedMoves nrows ncols draws (nrows * ncols).toNat := by
  simp only [specSeedMoves, seedMoves]

theorem specLightMoves_eq {nrows ncols : Int} (hr : 0 ≤ nrows) (hc : 0 ≤ ncols)
    (chance : ℚ) (draws : Nat → ℚ) :
    specLightMoves nrows ncols chance draws =
      lightMoves nrows ncols chance draws (2 * (nrows * ncols).toNat) := by
  simp only [specLightMoves, lightMoves, toNat_mul_toNat hr hc]

theorem createBoard_eq_spec {nrows ncols : Int} (hr : 0 ≤ nrows) (hr2 : nrows < 2 ^ 32)
    (hc : 0 ≤ ncols) (hc2 : ncols < 2 ^ 32) (hN : nrows * ncols ≤ 2 ^ 53)
    (chance : ℚ) (draws : Nat → ℚ) :
    createBoard nrows ncols chance draws = specCreateBoard nrows ncols chance draws := by
  have hN0 : 0 ≤ nrows * ncols := mul_nonneg hr hc
  have hround := roundDouble_intCast hN0 hN
  have hNq : ((nrows * ncols : Int) : ℚ) ≤ 2 ^ 53 := by exact_mod_cast hN
  rw [createBoard_eq, if_neg (by omega), if_neg (by omega), hround, if_neg (by linarith),
    Int.floor_intCast, specCreateBoard, specSeedMoves_eq, specLightMoves_eq hr hc,
    toNat_mul_toNat hr hc]
  cases applyMoves nrows ncols _ _ with
  | none => simp only [Option.map_none']
  | some g => simp only [Option.map_some']

theorem allFalse_toNat_wf {nrows ncols : Int} (hr : 0 ≤ nrows) (hc : 0 ≤ ncols) :
    WellFormed nrows ncols (allFalse nrows.toNat ncols.toNat) := by
  have h := allFalse_wf nrows.toNat ncols.toNat
  rwa [Int.toNat_of_nonneg hr, Int.toNat_of_nonneg hc] at h

theorem allFalse_toNat_wf_of_guard {nrows ncols : Int} (hr : 0 ≤ nrows)
    (hc : 0 < nrows → 0 ≤ ncols) :
    WellFormed nrows ncols (allFalse nrows.toNat ncols.toNat) := by
  by_cases h : 0 < nrows
  · exact allFalse_toNat_wf hr (hc h)
  · have h0 : nrows = 0 := by omega
    subst h0
    refine ⟨by simp [allFalse], ?_⟩
    intro row hrow
    simp [allFalse] at hrow

theorem createBoard_returns {nrows ncols : Int} (hr : 0 ≤ nrows) (hr2 : nrows < 2 ^ 32)
    (hc : 0 ≤ ncols) (hc2 : ncols < 2 ^ 32) (hN : nrows * ncols ≤ 2 ^ 53)
    (chance : ℚ) (draws : Nat → ℚ) :
    ∃ G, createBoard nrows ncols chance draws =
        some (G, 2 * (nrows * ncols).toNat + (nrows * ncols).toNat) ∧
      applyMoves nrows ncols
        (specSeedMoves nrows ncols draws ++ specLightMoves nrows ncols chance draws)
        (allFalse nrows.toNat ncols.toNat) = some G ∧
      WellFormed nrows ncols G := by
  obtain ⟨G, e, w⟩ := @applyMoves_wf nrows ncols
    (specSeedMoves nrows ncols draws ++ specLightMoves nrows ncols chance draws) _
    (allFalse_toNat_wf hr hc)
  refine ⟨G, ?_, e, w⟩
  rw [createBoard_eq_spec hr hr2 hc hc2 hN, specCreateBoard, e]

/-- What a returned board tells: the guards of `createBoard` passed, and the
board is the all-unlit board after the toggles of the two loops. -/
theorem createBoard_some {nrows ncols : Int} {chance : ℚ} {draws : Nat → ℚ} {G : Grid}
    {n : Nat} (h : createBoard nrows ncols chance draws = some (G, n)) :
    0 ≤ nrows ∧ nrows < 2 ^ 32 ∧ (0 < nrows → 0 ≤ ncols ∧ ncols < 2 ^ 32) ∧
      ∃ k : Nat, applyMoves nrows ncols
        (seedMoves nrows ncols draws k ++ lightMoves nrows ncols chance draws (2 * k))
        (allFalse nrows.toNat ncols.toNat) = some G := by
  rw [createBoard_eq] at h
  by_cases h1 : nrows < 0 ∨ 2 ^ 32 ≤ nrows
  · rw [if_pos h1] at h; exact absurd h (by simp)
  rw [if_neg h1] at h
  by_cases h2 : 0 < nrows ∧ (ncols < 0 ∨ 2 ^ 32 ≤ ncols)
  · rw [if_pos h2] at h; exact absurd h (by simp)
  rw [if_neg h2] at h
  by_cases h3 : 2 ^ 53 < roundDouble (((nrows * ncols : Int) : ℚ))
  · rw [if_pos h3] at h; exact absurd h (by simp)
  rw [if_neg h3] at h
  refine ⟨by omega, by omega, fun hpos => by omega,
    ⌊roundDouble (((nrows * ncols : Int) : ℚ))⌋.toNat, ?_⟩
  cases hm : applyMoves nrows ncols
      (seedMoves nrows ncols draws ⌊roundDouble (((nrows * ncols : Int) : ℚ))⌋.toNat ++
        lightMoves nrows ncols chance draws
          (2 * ⌊roundDouble (((nrows * ncols : Int) : ℚ))⌋.toNat))
      (allFalse nrows.toNat ncols.toNat) with
  | none => rw [hm] at h; exact absurd h (by simp)
  | some g =>
    rw [hm] at h
    simp only [Option.map_some', Option.some.injEq, Prod.mk.injEq] at h
    rw [h.1]

theorem createBoard_some_wf {nrows ncols : Int} {chance : ℚ} {draws : Nat → ℚ} {G : Grid}
    {n : Nat} (h : createBoard nrows ncols chance draws = some (G, n)) :
    WellFormed nrows ncols G := by
  obtain ⟨hr, -, hc, k, hm⟩ := createBoard_some h
  obtain ⟨G', e, w⟩ := @applyMoves_wf nrows ncols
    (seedMoves nrows ncols draws k ++ lightMoves nrows ncols chance draws (2 * k)) _
    (allFalse_toNat_wf_of_guard hr (fun hp => (hc hp).1))
  rw [hm, Option.some.injEq] at e
  rw [e]
  exact w

theorem seedMoves_onBoard {nrows ncols : Int} (hr : 1 ≤ nrows) (hr2 : nrows ≤ 2 ^ 53)
    (hc : 1 ≤ ncols) (hc2 : ncols ≤ 2 ^ 53) {draws : Nat → ℚ}
    (hdbl : ∀ n, IsDouble (draws n)) (hd : ∀ n, 0 ≤ draws n ∧ draws n < 1) (k : Nat) :
    ∀ p ∈ seedMoves nrows ncols draws k, onBoard nrows ncols p = true := by
  intro p hp
  simp only [seedMoves, List.mem_map, List.mem_range] at hp
  obtain ⟨i, -, rfl⟩ := hp
  obtain ⟨hy0, hy1⟩ := floor_roundDouble_product (hdbl (2 * i)) (hd _).1 (hd _).2 hr hr2
  obtain ⟨hx0, hx1⟩ := floor_roundDouble_product (hdbl (2 * i + 1)) (hd _).1 (hd _).2 hc hc2
  simp only [onBoard, decide_eq_true_eq]
  exact ⟨hy0, hy1, hx0, hx1⟩

theorem specSeedMoves_onBoard {nrows ncols : Int} (hr : 1 ≤ nrows) (hr2 : nrows ≤ 2 ^ 53)
    (hc : 1 ≤ ncols) (hc2 : ncols ≤ 2 ^ 53) {draws : Nat → ℚ}
    (hdbl : ∀ n, IsDouble (draws n)) (hd : ∀ n, 0 ≤ draws n ∧ draws n < 1) :
    ∀ p ∈ specSeedMoves nrows ncols draws, onBoard nrows ncols p = true := by
  rw [specSeedMoves_eq]
  exact seedMoves_onBoard hr hr2 hc hc2 hdbl hd _

theorem lightMoves_onBoard {nrows ncols : Int} (hr : 0 < nrows) (hc : 0 < ncols)
    (chance : ℚ) (draws : Nat → ℚ) (p0 : Nat) :
    ∀ p ∈ lightMoves nrows ncols chance draws p0, onBoard nrows ncols p = true := by
  intro p hp
  simp only [lightMoves, List.mem_map, List.mem_filter, List.mem_range] at hp
  obtain ⟨k, ⟨hk, -⟩, rfl⟩ := hp
  have hm : 0 < ncols.toNat := by omega
  have h1 : k / ncols.toNat < nrows.toNat :=
    Nat.div_lt_of_lt_mul (by rwa [Nat.mul_comm] at hk)
  have h2 : k % ncols.toNat < ncols.toNat := Nat.mod_lt _ hm
  simp only [onBoard, decide_eq_true_eq]
  generalize k / ncols.toNat = a at h1 ⊢
  generalize k % ncols.toNat = c at h2 ⊢
  omega

theorem specLightMoves_onBoard {nrows ncols : Int} (hr : 0 < nrows) (hc : 0 < ncols)
    (chance : ℚ) (draws : Nat → ℚ) :
    ∀ p ∈ specLightMoves nrows ncols chance draws, onBoard nrows ncols p = true := by
  rw [specLightMoves_eq hr.le hc.le]
  exact lightMoves_onBoard hr hc chance draws _

theorem hasWon_allFalse (n m : Nat) : hasWon (allFalse n m) = true := by
  rw [hasWon_eq_true_iff]
  intro row hrow c hcm
  rw [allFalse, List.mem_replicate] at hrow
  rw [hrow.2, List.mem_replicate] at hcm
  exact hcm.2

/-- C7: every generated board is solvable.  For positive `nrows`, `ncols`, any
`chanceLightStartsOn` and any draws, doubles in `[0, 1)`, every board that
`createBoard` returns is produced from the all-unlit board by a finite
sequence of in-bounds cross toggles, and a finite sequence of in-bounds moves,
run by `simulateFlip` or by the player through `flipCellsAround`, leads from
it to a board on which `hasWon` is true.  `createBoard` does return a board
when the dimensions are array lengths (below `2 ^ 32`) and the loop bound
`nrows * ncols` is at most `2 ^ 53`. -/
theorem createBoard_solvable (nrows ncols : Int) (hr : 0 < nrows) (hc : 0 < ncols)
    (chanceLightStartsOn : ℚ) (draws : Nat → ℚ) (hdbl : ∀ n, IsDouble (draws n))
    (hd : ∀ n, 0 ≤ draws n ∧ draws n < 1) :
    (∀ G n, createBoard nrows ncols chanceLightStartsOn draws = some (G, n) →
      (∃ moves, (∀ p ∈ moves, onBoard nrows ncols p = true) ∧
        applyMoves nrows ncols moves (allFalse nrows.toNat ncols.toNat) = some G) ∧
      (∃ moves G', (∀ p ∈ moves, onBoard nrows ncols p = true) ∧
        applyMoves nrows ncols moves G = some G' ∧ hasWon G' = true ∧
        ∀ (h : Heap) (b : Nat), h.deref b = some G →
          ∃ h' b', playMoves nrows ncols moves h b = some (h', b') ∧
            h'.deref b' = some G')) ∧
    (nrows < 2 ^ 32 → ncols < 2 ^ 32 → nrows * ncols ≤ 2 ^ 53 →
      ∃ G n, createBoard nrows ncols chanceLightStartsOn draws = some (G, n)) := by
  constructor
  · intro G n hret
    obtain ⟨-, hr2, hcb, k, hm⟩ := createBoard_some hret
    have hc2 := (hcb hr).2
    have w := createBoard_some_wf hret
    have hon : ∀ p ∈ seedMoves nrows ncols draws k ++
        lightMoves nrows ncols chanceLightStartsOn draws (2 * k),
        onBoard nrows ncols p = true := by
      intro p hp
      rcases List.mem_append.1 hp with h | h
      · exact seedMoves_onBoard (by omega) (by omega) (by omega) (by omega) hdbl hd k p h
      · exact lightMoves_onBoard hr hc chanceLightStartsOn draws _ p h
    have hback := applyMoves_reverse _ (allFalse_toNat_wf hr.le hc.le) hm
    refine ⟨⟨_, hon, hm⟩, ⟨_, allFalse nrows.toNat ncols.toNat, ?_, hback,
      hasWon_allFalse _ _, ?_⟩⟩
    · intro p hp
      exact hon p (List.mem_reverse.1 hp)
    · intro h b hdr
      exact playMoves_spec _ hdr w hback
  · intro hr2 hc2 hN
    obtain ⟨G, e, -, -⟩ :=
      createBoard_returns hr.le hr2 hc.le hc2 hN chanceLightStartsOn draws
    exact ⟨G, _, e⟩

/-- Witness of C7: the 1×1 board generated from the constant draw `0`. -/
theorem createBoard_solvable_witness :
    ∃ G n, createBoard 1 1 0 (fun _ => 0) = some (G, n) ∧
      (∃ moves, (∀ p ∈ moves, onBoard 1 1 p = true) ∧
        applyMoves 1 1 moves (allFalse (1 : Int).toNat (1 : Int).toNat) = some G) ∧
      (∃ moves G', (∀ p ∈ moves, onBoard 1 1 p = true) ∧
        applyMoves 1 1 moves G = some G' ∧ hasWon G' = true ∧
        ∀ (h : Heap) (b : Nat), h.deref b = some G →
          ∃ h' b', playMoves 1 1 moves h b = some (h', b') ∧ h'.deref b' = some G') := by
  have key := createBoard_solvable 1 1 (by decide) (by decide) 0 (fun _ => 0)
    (fun _ => IsDouble.zero) (fun _ => ⟨le_refl 0, zero_lt_one⟩)
  obtain ⟨G, n, e⟩ := key.2 (by norm_num) (by norm_num) (by norm_num)
  exact ⟨G, n, e, key.1 G n e⟩

/-- C8: with the random source an explicit stream of draws, `createBoard` is
the reference procedure of the specification: the all-false board, then for
each of the `nrows * ncols` seed steps two draws `u`, `v` and a cross toggle at
`(⌊u * nrows⌋, ⌊v * ncols⌋)`, then for each cell in row-major order one draw
and a cross toggle at that cell exactly when the draw is below
`chanceLightStartsOn`; there are `nrows * ncols` seed toggles and
`2 * nrows * ncols + nrows * ncols` draws are consumed.  The dimensions are
array lengths (below `2 ^ 32`) with `nrows * ncols` at most `2 ^ 53`, the
boards that `createBoard` returns. -/
theorem createBoard_eq_reference (nrows ncols : Int) (hr : 0 ≤ nrows) (hr2 : nrows < 2 ^ 32)
    (hc : 0 ≤ ncols) (hc2 : ncols < 2 ^ 32) (hN : nrows * ncols ≤ 2 ^ 53)
    (chanceLightStartsOn : ℚ) (draws : Nat → ℚ) :
    createBoard nrows ncols chanceLightStartsOn draws =
      specCreateBoard nrows ncols chanceLightStartsOn draws ∧
    (specSeedMoves nrows ncols draws).length = (nrows * ncols).toNat ∧
    ∃ G, createBoard nrows ncols chanceLightStartsOn draws =
      some (G, 2 * (nrows * ncols).toNat + (nrows * ncols).toNat) := by
  refine ⟨createBoard_eq_spec hr hr2 hc hc2 hN _ _, by simp [specSeedMoves], ?_⟩
  obtain ⟨G, e, -, -⟩ := createBoard_returns hr hr2 hc hc2 hN chanceLightStartsOn draws
  exact ⟨G, e⟩

/-- Witness of C8: a 2×2 board, every draw `1/2`, chance `3/4`. -/
theorem createBoard_eq_reference_witness :
    createBoard 2 2 (3 / 4) (fun _ => 1 / 2) = specCreateBoard 2 2 (3 / 4) (fun _ => 1 / 2) ∧
    (specSeedMoves 2 2 (fun _ => 1 / 2)).length = ((2 : Int) * 2).toNat ∧
    ∃ G, createBoard 2 2 (3 / 4) (fun _ => 1 / 2) =
      some (G, 2 * ((2 : Int) * 2).toNat + ((2 : Int) * 2).toNat) :=
  createBoard_eq_reference 2 2 (by decide) (by norm_num) (by decide) (by norm_num)
    (by norm_num) (3 / 4) (fun _ => 1 / 2)

/-- C9: the shape of the board is an invariant.  Every board that `createBoard`
returns has `nrows` rows of `ncols` booleans, and it returns one when the
dimensions are array lengths (from `0` to below `2 ^ 32`) with `nrows * ncols`
at most `2 ^ 53`; `simulateFlip`, the updater of `flipCellsAround` at any
coordinate, and any sequence of player moves map a board of that shape to a
board of that shape. -/
theorem shape_invariant (nrows ncols : Int) :
    (∀ (chanceLightStartsOn : ℚ) (draws : Nat → ℚ) (G : Grid) (n : Nat),
      createBoard nrows ncols chanceLightStartsOn draws = some (G, n) →
        WellFormed nrows ncols G) ∧
    (0 ≤ nrows → nrows < 2 ^ 32 → 0 ≤ ncols → ncols < 2 ^ 32 → nrows * ncols ≤ 2 ^ 53 →
      ∀ (chanceLightStartsOn : ℚ) (draws : Nat → ℚ),
      ∃ G n, createBoard nrows ncols chanceLightStartsOn draws = some (G, n) ∧
        WellFormed nrows ncols G) ∧
    (∀ G, WellFormed nrows ncols G → ∀ y x : Int,
      ∃ G', simulateFlip nrows ncols G y x = some G' ∧ WellFormed nrows ncols G') ∧
    (∀ G, WellFormed nrows ncols G → ∀ (h : Heap) (b : Nat), h.deref b = some G → ∀ y x : Int,
      ∃ h' b' G', flipCellsAround.updater nrows ncols y x h b = some (h', b') ∧
        h'.deref b' = some G' ∧ WellFormed nrows ncols G') ∧
    (∀ G, WellFormed nrows ncols G → ∀ (h : Heap) (b : Nat), h.deref b = some G →
      ∀ moves : List (Int × Int),
        ∃ h' b' G', playMoves nrows ncols moves h b = some (h', b') ∧
          h'.deref b' = some G' ∧ WellFormed nrows ncols G') := by
  refine ⟨?_, ?_, ?_, ?_, ?_⟩
  · intro chance draws G n hret
    exact createBoard_some_wf hret
  · intro hr hr2 hc hc2 hN chance draws
    obtain ⟨G, e, -, w⟩ := createBoard_returns hr hr2 hc hc2 hN chance draws
    exact ⟨G, _, e, w⟩
  · intro G hwf y x
    obtain ⟨G', e, w, -⟩ := simulateFlip_spec hwf y x
    exact ⟨G', e, w⟩
  · intro G hwf h b hd y x
    obtain ⟨G', e, w, -⟩ := simulateFlip_spec hwf y x
    obtain ⟨h', b', G1, hu, hs, hn, -⟩ := flipCellsAround.updater_spec hd hwf y x
    rw [e, Option.some.injEq] at hs
    subst hs
    exact ⟨h', b', G', hu, hn, w⟩
  · intro G hwf h b hd moves
    obtain ⟨G', e, w⟩ := applyMoves_wf moves hwf
    obtain ⟨h', b', hp, hn⟩ := playMoves_spec moves hd hwf e
    exact ⟨h', b', G', hp, hn, w⟩

/-- Witness of C9: the 2×3 board generated from the constant draw `0`. -/
theorem shape_invariant_witness :
    ∃ G n, createBoard 2 3 0 (fun _ => 0) = some (G, n) ∧ WellFormed 2 3 G :=
  (shape_invariant 2 3).2.1 (by decide) (by norm_num) (by decide) (by norm_num)
    (by norm_num) 0 (fun _ => 0)

/-- C10: the cross toggle has no failure path.  On a well-formed board and for
every integer coordinate, a coordinate that passes the bounds check indexes an
existing row and an existing cell of it, so `simulateFlip` and the updater of
`flipCellsAround` complete without an access outside the arrays. -/
theorem toggle_never_fails (nrows ncols : Int) (G : Grid) (hwf : WellFormed nrows ncols G)
    (y x : Int) :
    (∀ p ∈ crossCoords y x, onBoard nrows ncols p = true →
      ∃ row v, G[p.1.toNat]? = some row ∧ row[p.2.toNat]? = some v) ∧
    (simulateFlip nrows ncols G y x).isSome = true ∧
    (∀ (h : Heap) (b : Nat), h.deref b = some G →
      (flipCellsAround.updater nrows ncols y x h b).isSome = true) := by
  refine ⟨?_, ?_, ?_⟩
  · intro p _ hon
    simp only [onBoard, decide_eq_true_eq] at hon
    have hlen := hwf.1
    have hy : p.1.toNat < G.length := by omega
    have hrow := hwf.2 G[p.1.toNat] (List.getElem_mem hy)
    have hx : p.2.toNat < G[p.1.toNat].length := by omega
    exact ⟨_, _, List.getElem?_eq_getElem hy, List.getElem?_eq_getElem hx⟩
  · obtain ⟨G', e, -, -⟩ := simulateFlip_spec hwf y x
    rw [e]; rfl
  · intro h b hd
    obtain ⟨h', b', G', hu, -, -, -⟩ := flipCellsAround.updater_spec hd hwf y x
    rw [hu]; rfl

/-- Witness of C10: a toggle at the off-grid coordinate `(-1, 2)` of a 2×2 board. -/
theorem toggle_never_fails_witness :
    (simulateFlip 2 2 [[true, false], [false, true]] (-1) 2).isSome = true :=
  (toggle_never_fails 2 2 [[true, false], [false, true]] (by decide) (-1) 2).2.1

/-! ## The won state and the session -/

theorem hasWon_eq_false_iff_cell (A : Grid) :
    hasWon A = false ↔ ∃ i j, Grid.cell A i j = some true := by
  rw [← Bool.not_eq_true, hasWon_eq_true_iff]
  constructor
  · intro h
    by_contra hc
    apply h
    intro row hrow c hcm
    cases c with
    | false => rfl
    | true =>
      exfalso
      apply hc
      obtain ⟨i, hi⟩ := List.mem_iff_getElem?.1 hrow
      obtain ⟨j, hj⟩ := List.mem_iff_getElem?.1 hcm
      exact ⟨i, j, by simp [Grid.cell, hi, hj]⟩
  · rintro ⟨i, j, hij⟩ h
    unfold Grid.cell at hij
    cases hi : A[i]? with
    | none => simp [hi] at hij
    | some row =>
      simp only [hi] at hij
      have := h row (List.mem_iff_getElem?.2 ⟨i, hi⟩) true (List.mem_iff_getElem?.2 ⟨j, hij⟩)
      exact absurd this (by decide)

theorem hasWon_cell_false {A : Grid} (hw : hasWon A = true) {i j : Nat} {v : Bool}
    (hc : Grid.cell A i j = some v) : v = false := by
  cases v with
  | false => rfl
  | true =>
    have := (hasWon_eq_false_iff_cell A).2 ⟨i, j, hc⟩
    rw [hw] at this
    exact absurd this (by decide)

/-- C17: a move always leaves the won state at the engine level.  For a
well-formed all-unlit `nrows × ncols` board (`hasWon` true) and an in-bounds
coordinate, which exists only when `nrows` and `ncols` are at least 1, the
updater of `flipCellsAround` returns a board whose centre cell is lit and on
which `hasWon` is false; the updater runs on a won board like on any other. -/
theorem move_leaves_won (nrows ncols : Int) (G : Grid)
    (hwf : WellFormed nrows ncols G) (hwon : hasWon G = true) (y x : Int)
    (hin : onBoard nrows ncols (y, x) = true) (h : Heap) (b : Nat)
    (hd : h.deref b = some G) :
    ∃ h' b' G', flipCellsAround.updater nrows ncols y x h b = some (h', b') ∧
      h'.deref b' = some G' ∧ Grid.cell G' y.toNat x.toNat = some true ∧
      hasWon G' = false := by
  obtain ⟨h', b', G', hu, hs, hn, -⟩ := flipCellsAround.updater_spec hd hwf y x
  obtain ⟨G1, e, -, c⟩ := simulateFlip_spec hwf y x
  rw [hs, Option.some.injEq] at e
  subst e
  simp only [onBoard, decide_eq_true_eq] at hin
  have hy : ((y.toNat : Nat) : Int) = y := Int.toNat_of_nonneg hin.1
  have hx : ((x.toNat : Nat) : Int) = x := Int.toNat_of_nonneg hin.2.2.1
  obtain ⟨v, hv⟩ := hwf.cell_isSome (i := y.toNat) (j := x.toNat) (by omega) (by omega)
  have hvf := hasWon_cell_false hwon hv
  subst hvf
  have hcell : Grid.cell G' y.toNat x.toNat = some true := by
    rw [c, hy, hx, if_pos (by simp [inCross]), hv]
    rfl
  exact ⟨h', b', G', hu, hn, hcell, (hasWon_eq_false_iff_cell G').2 ⟨_, _, hcell⟩⟩

/-- Witness of C17: a move at `(0, 1)` on the all-unlit 2×2 board. -/
theorem move_leaves_won_witness :
    ∃ h' b' G',
      flipCellsAround.updater 2 2 0 1 ⟨[[false, false], [false, false]], [[0, 1]]⟩ 0
        = some (h', b') ∧
      h'.deref b' = some G' ∧ Grid.cell G' (0 : Int).toNat (1 : Int).toNat = some true ∧
      hasWon G' = false :=
  move_leaves_won 2 2 [[false, false], [false, false]] (by decide)
    (by decide) 0 1 (by decide) ⟨[[false, false], [false, false]], [[0, 1]]⟩ 0 (by decide)

/-! ## Degenerate and extreme parameters -/

theorem lightMoves_eq_nil (nrows ncols : Int) {chance : ℚ} (hch : chance ≤ 0)
    {draws : Nat → ℚ} (hd : ∀ n, 0 ≤ draws n ∧ draws n < 1) (p : Nat) :
    lightMoves nrows ncols chance draws p = [] := by
  unfold lightMoves
  rw [List.map_eq_nil_iff, List.filter_eq_nil_iff]
  intro k _
  have := (hd (p + k)).1
  simp only [decide_eq_true_eq, not_lt]
  linarith

theorem specLightMoves_eq_nil (nrows ncols : Int) {chance : ℚ} (hch : chance ≤ 0)
    {draws : Nat → ℚ} (hd : ∀ n, 0 ≤ draws n ∧ draws n < 1) :
    specLightMoves nrows ncols chance draws = [] := by
  unfold specLightMoves
  rw [List.map_eq_nil_iff, List.filter_eq_nil_iff]
  intro k _
  have := (hd (2 * (nrows * ncols).toNat + k)).1
  simp only [decide_eq_true_eq, not_lt]
  linarith

theorem seedMoves_congr (nrows ncols : Int) {draws draws' : Nat → ℚ} {k : Nat}
    (h : ∀ n, n < 2 * k → draws n = draws' n) :
    seedMoves nrows ncols draws k = seedMoves nrows ncols draws' k := by
  unfold seedMoves
  apply List.map_congr_left
  intro i hi
  have hi' := List.mem_range.1 hi
  rw [h (2 * i) (by omega), h (2 * i + 1) (by omega)]

theorem seedCount_le {nrows ncols : Int} (hr : 0 ≤ nrows) (hc : 0 ≤ ncols)
    (h3 : ¬ 2 ^ 53 < roundDouble (((nrows * ncols : Int) : ℚ))) :
    ⌊roundDouble (((nrows * ncols : Int) : ℚ))⌋.toNat ≤ (nrows * ncols).toNat := by
  have hN0 : 0 ≤ nrows * ncols := mul_nonneg hr hc
  by_cases hN : nrows * ncols ≤ 2 ^ 53
  · rw [roundDouble_intCast hN0 hN, Int.floor_intCast]
  · have hle : roundDouble (((nrows * ncols : Int) : ℚ)) ≤ 2 ^ 53 := not_lt.1 h3
    generalize roundDouble (((nrows * ncols : Int) : ℚ)) = x at hle ⊢
    have hfl : ⌊x⌋ < 2 ^ 53 + 1 := Int.floor_lt.2 (by push_cast; linarith)
    omega

/-- C13: with `chanceLightStartsOn ≤ 0` and draws in `[0, 1)` the lighting
branch is never taken, so two runs of `createBoard` with the same dimensions
and the same first `2 * nrows * ncols` draws have the same outcome, whatever
the later draws are, and return the same board when the dimensions are array
lengths with `nrows * ncols` at most `2 ^ 53`; with `chanceLightStartsOn ≥ 1`
the branch is taken for every cell. -/
theorem createBoard_reproducible (nrows ncols : Int) (hr : 0 ≤ nrows) (hc : 0 ≤ ncols)
    (chanceLightStartsOn : ℚ) (draws draws' : Nat → ℚ)
    (hd : ∀ n, 0 ≤ draws n ∧ draws n < 1) (hd' : ∀ n, 0 ≤ draws' n ∧ draws' n < 1) :
    (chanceLightStartsOn ≤ 0 →
      (∀ (y x : Nat) (s : GenState),
        createBoard.lightStep nrows ncols chanceLightStartsOn draws y x s
          = some (s.1, s.2 + 1)) ∧
      ((∀ n, n < 2 * (nrows * ncols).toNat → draws n = draws' n) →
        createBoard nrows ncols chanceLightStartsOn draws
          = createBoard nrows ncols chanceLightStartsOn draws' ∧
        (nrows < 2 ^ 32 → ncols < 2 ^ 32 → nrows * ncols ≤ 2 ^ 53 →
          ∃ G k, createBoard nrows ncols chanceLightStartsOn draws = some (G, k) ∧
            createBoard nrows ncols chanceLightStartsOn draws' = some (G, k)))) ∧
    (1 ≤ chanceLightStartsOn →
      ∀ (y x : Nat) (s : GenState),
        createBoard.lightStep nrows ncols chanceLightStartsOn draws y x s
          = (simulateFlip nrows ncols s.1 y x).map (fun b => (b, s.2 + 1))) := by
  constructor
  · intro hch
    constructor
    · intro y x s
      have := (hd s.2).1
      rw [createBoard.lightStep, if_neg (by linarith)]
    · intro hsame
      have heq : createBoard nrows ncols chanceLightStartsOn draws
          = createBoard nrows ncols chanceLightStartsOn draws' := by
        rw [createBoard_eq, createBoard_eq]
        by_cases h1 : nrows < 0 ∨ 2 ^ 32 ≤ nrows
        · rw [if_pos h1, if_pos h1]
        rw [if_neg h1, if_neg h1]
        by_cases h2 : 0 < nrows ∧ (ncols < 0 ∨ 2 ^ 32 ≤ ncols)
        · rw [if_pos h2, if_pos h2]
        rw [if_neg h2, if_neg h2]
        by_cases h3 : 2 ^ 53 < roundDouble (((nrows * ncols : Int) : ℚ))
        · rw [if_pos h3, if_pos h3]
        rw [if_neg h3, if_neg h3]
        have hk := seedCount_le hr hc h3
        rw [lightMoves_eq_nil nrows ncols hch hd, lightMoves_eq_nil nrows ncols hch hd',
          seedMoves_congr nrows ncols (fun n hn => hsame n (by omega))]
      refine ⟨heq, ?_⟩
      intro hr2 hc2 hN
      obtain ⟨G, e, -, -⟩ := createBoard_returns hr hr2 hc hc2 hN chanceLightStartsOn draws
      exact ⟨G, _, e, by rw [← heq, e]⟩
  · intro hch y x s
    have := (hd s.2).2
    rw [createBoard.lightStep, if_pos (by linarith)]
    cases simulateFlip nrows ncols s.1 y x <;> rfl

/-- Witness of C13: two 1×1 runs with chance `0` whose draws differ from
position 2 on. -/
theorem createBoard_reproducible_witness :
    ∃ G k, createBoard 1 1 0 (fun _ => 0) = some (G, k) ∧
      createBoard 1 1 0 (fun n => if n < 2 then 0 else 1 / 2) = some (G, k) :=
  (((createBoard_reproducible 1 1 (by decide) (by decide) 0 (fun _ => 0)
      (fun n => if n < 2 then 0 else 1 / 2)
      (fun _ => ⟨le_refl 0, zero_lt_one⟩)
      (fun n => by
        by_cases h : n < 2
        · simp [h]
        · simp only [h, if_false]; constructor <;> norm_num)).1 (le_refl 0)).2
    (fun n hn => by
      have h : n < 2 := by simpa using hn
      simp [h])).2 (by norm_num) (by norm_num) (by norm_num)

theorem toggle_one_by_one (b : Bool) : simulateFlip 1 1 [[b]] 0 0 = some [[!b]] := by
  cases b <;> decide

theorem applyMoves_one_by_one (n : Nat) (b : Bool) :
    applyMoves 1 1 (List.replicate n (0, 0)) [[b]] = some [[xor b (decide (n % 2 = 1))]] := by
  induction n generalizing b with
  | zero => simp [applyMoves]
  | succ n ih =>
    rw [List.replicate_succ]
    simp only [applyMoves, toggle_one_by_one, ih]
    rcases Nat.mod_two_eq_zero_or_one n with h | h
    · have h' : (n + 1) % 2 = 1 := by omega
      cases b <;> simp [h, h']
    · have h' : (n + 1) % 2 = 0 := by omega
      cases b <;> simp [h, h']

theorem specSeedMoves_one_by_one {draws : Nat → ℚ} (hdbl : ∀ n, IsDouble (draws n))
    (hd : ∀ n, 0 ≤ draws n ∧ draws n < 1) :
    specSeedMoves 1 1 draws = [(0, 0)] := by
  have hfloor : ∀ n : Nat, ⌊roundDouble (draws n * ((1 : Int) : ℚ))⌋ = 0 := by
    intro n
    obtain ⟨h0, h1⟩ := floor_roundDouble_product (n := 1) (hdbl n) (hd n).1 (hd n).2
      (le_refl 1) (by norm_num)
    omega
  have hN : ((1 : Int) * 1).toNat = 1 := by decide
  have hrange : List.range 1 = [0] := by decide
  simp only [specSeedMoves, hN, hrange, List.map_cons, List.map_nil, hfloor]

/-- C14: on a 1×1 board every seed coordinate is `(0, 0)` and each toggle flips
the single cell: from the unlit board, `n` cross toggles at `(0, 0)` leave the
cell unlit with `hasWon` true when `n` is even, lit with `hasWon` false when
`n` is odd; `createBoard` with `nrows = 1`, `ncols = 1`, `chanceLightStartsOn = 0`
makes its one seed toggle and no other, and returns the lit board.  The draws
are doubles in `[0, 1)`. -/
theorem one_by_one_parity (draws : Nat → ℚ) (hdbl : ∀ n, IsDouble (draws n))
    (hd : ∀ n, 0 ≤ draws n ∧ draws n < 1) :
    specSeedMoves 1 1 draws = [(0, 0)] ∧
    specLightMoves 1 1 0 draws = [] ∧
    (∀ n : Nat, n % 2 = 0 →
      applyMoves 1 1 (List.replicate n (0, 0)) [[false]] = some [[false]] ∧
        hasWon [[false]] = true) ∧
    (∀ n : Nat, n % 2 = 1 →
      applyMoves 1 1 (List.replicate n (0, 0)) [[false]] = some [[true]] ∧
        hasWon [[true]] = false) ∧
    createBoard 1 1 0 draws = some ([[true]], 3) := by
  have hseed := specSeedMoves_one_by_one hdbl hd
  have hlight := specLightMoves_eq_nil 1 1 (le_refl (0 : ℚ)) hd
  refine ⟨hseed, hlight, ?_, ?_, ?_⟩
  · intro n hn
    refine ⟨?_, by decide⟩
    rw [applyMoves_one_by_one]
    simp [hn]
  · intro n hn
    refine ⟨?_, by decide⟩
    rw [applyMoves_one_by_one]
    simp [hn]
  · rw [createBoard_eq_spec (by decide) (by norm_num) (by decide) (by norm_num) (by norm_num),
      specCreateBoard, hseed, hlight]
    decide

/-- Witness of C14: the constant draw `0`. -/
theorem one_by_one_parity_witness : createBoard 1 1 0 (fun _ => 0) = some ([[true]], 3) :=
  (one_by_one_parity (fun _ => 0) (fun _ => IsDouble.zero)
    (fun _ => ⟨le_refl 0, zero_lt_one⟩)).2.2.2.2

/-- Counterexample to C12 as stated: for `nrows = -1` the call `Array(nrows)`
throws and `createBoard` returns no board. -/
theorem createBoard_negative_rows_throws : createBoard (-1) 1 0 (fun _ => 0) = none := by
  rw [createBoard, if_pos (Or.inl (by decide))]

/-- C12, amended: `createBoard` validates nothing.  When `nrows = 0`, or `nrows`
is an array length above `0` (below `2 ^ 32`) and `ncols = 0`, it returns a
board without any cell, `nrows` empty rows, consumes no draw, and `hasWon` is
true on that board.  When `nrows` is negative or `2 ^ 32` or more, or `nrows`
is positive and `ncols` is negative or `2 ^ 32` or more, the array constructor
throws and no board is returned. -/
theorem createBoard_degenerate (nrows ncols : Int) (chanceLightStartsOn : ℚ)
    (draws : Nat → ℚ) :
    ((nrows = 0 ∨ (0 < nrows ∧ nrows < 2 ^ 32 ∧ ncols = 0)) →
      createBoard nrows ncols chanceLightStartsOn draws
          = some (List.replicate nrows.toNat [], 0) ∧
        (∀ i j : Nat, Grid.cell (List.replicate nrows.toNat []) i j = none) ∧
        hasWon (List.replicate nrows.toNat []) = true) ∧
    ((nrows < 0 ∨ 2 ^ 32 ≤ nrows ∨ (0 < nrows ∧ (ncols < 0 ∨ 2 ^ 32 ≤ ncols))) →
      createBoard nrows ncols chanceLightStartsOn draws = none) := by
  constructor
  · intro hdim
    refine ⟨?_, ?_, ?_⟩
    · have hN : nrows * ncols = 0 := by
        rcases hdim with h0 | ⟨-, -, h0⟩
        · rw [h0, zero_mul]
        · rw [h0, mul_zero]
      have hcells : nrows.toNat * ncols.toNat = 0 := by
        rcases hdim with h0 | ⟨-, -, h0⟩
        · rw [h0]; simp
        · rw [h0]; simp
      have hboard : allFalse nrows.toNat ncols.toNat = List.replicate nrows.toNat [] := by
        rcases hdim with h0 | ⟨-, -, h0⟩
        · rw [h0]; simp [allFalse]
        · rw [h0]; simp [allFalse]
      rw [createBoard_eq, if_neg (by rcases hdim with h | h <;> omega),
        if_neg (by rcases hdim with h | h <;> omega), hN, Int.cast_zero, roundDouble_zero,
        if_neg (by norm_num), Int.floor_zero]
      simp only [Int.toNat_zero, seedMoves, lightMoves, hcells, List.range_zero, List.map_nil,
        List.filter_nil, List.append_nil, applyMoves, Option.map_some', hboard, Nat.mul_zero,
        Nat.add_zero]
    · intro i j
      unfold Grid.cell
      cases hi : (List.replicate nrows.toNat ([] : List Bool))[i]? with
      | none => rfl
      | some row =>
        have hmem : row ∈ List.replicate nrows.toNat ([] : List Bool) :=
          List.mem_iff_getElem?.2 ⟨i, hi⟩
        rw [(List.mem_replicate.1 hmem).2]
        rfl
    · rw [hasWon_eq_true_iff]
      intro row hrow c hcm
      rw [(List.mem_replicate.1 hrow).2] at hcm
      exact absurd hcm (List.not_mem_nil c)
  · intro hneg
    unfold createBoard
    by_cases h1 : nrows < 0 ∨ 2 ^ 32 ≤ nrows
    · rw [if_pos h1]
    · rw [if_neg h1, if_pos (by omega)]

/-- Witness of C12, amended: three rows and no column. -/
theorem createBoard_degenerate_witness :
    createBoard 3 0 (1 / 2) (fun _ => 0) = some (List.replicate (3 : Int).toNat [], 0) ∧
      (∀ i j : Nat, Grid.cell (List.replicate (3 : Int).toNat []) i j = none) ∧
      hasWon (List.replicate (3 : Int).toNat []) = true :=
  (createBoard_degenerate 3 0 (1 / 2) (fun _ => 0)).1
    (Or.inr ⟨by decide, by norm_num, rfl⟩)

/-! ## Order of the toggles -/

theorem applyMoves_cell {nrows ncols : Int} (ms : List (Int × Int)) {G : Grid}
    (hwf : WellFormed nrows ncols G) :
    ∃ G', applyMoves nrows ncols ms G = some G' ∧ WellFormed nrows ncols G' ∧
      ∀ i j : Nat, Grid.cell G' i j =
        if (ms.countP (fun m => inCross m.1 m.2 i j)) % 2 = 1
        then (Grid.cell G i j).map not else Grid.cell G i j := by
  induction ms generalizing G with
  | nil => exact ⟨G, rfl, hwf, fun i j => by simp⟩
  | cons m rest ih =>
    obtain ⟨y, x⟩ := m
    obtain ⟨G1, e1, w1, c1⟩ := simulateFlip_spec hwf y x
    obtain ⟨G', e', w', c'⟩ := ih w1
    refine ⟨G', by simp only [applyMoves, e1, e'], w', ?_⟩
    intro i j
    rw [c', c1, List.countP_cons]
    simp only
    rcases Nat.mod_two_eq_zero_or_one
      (List.countP (fun m => inCross m.1 m.2 (i : Int) (j : Int)) rest) with h | h
    · by_cases hc : inCross y x (i : Int) (j : Int) = true
      · have h2 : (List.countP (fun m => inCross m.1 m.2 (i : Int) (j : Int)) rest + 1) % 2 = 1 := by
          omega
        simp [h, hc, h2]
      · simp [h, hc]
    · by_cases hc : inCross y x (i : Int) (j : Int) = true
      · have h2 : (List.countP (fun m => inCross m.1 m.2 (i : Int) (j : Int)) rest + 1) % 2 = 0 := by
          omega
        simp only [h, hc, h2, if_true]
        cases Grid.cell G i j <;> simp
      · simp [h, hc]

theorem countP_inCross (ms : List (Int × Int)) (i j : Int) :
    ms.countP (fun m => inCross m.1 m.2 i j) =
      ms.count (i, j) + ms.count (i, j + 1) + ms.count (i, j - 1) +
        ms.count (i + 1, j) + ms.count (i - 1, j) := by
  induction ms with
  | nil => simp
  | cons m rest ih =>
    obtain ⟨y, x⟩ := m
    rw [List.countP_cons, ih]
    simp only [List.count_cons, inCross, Bool.decide_or, Bool.decide_and,
      Bool.or_eq_true, Bool.and_eq_true, decide_eq_true_eq, beq_iff_eq, Prod.mk.injEq]
    split_ifs <;> omega

theorem applyMoves_parity {nrows ncols : Int} {G : Grid} (hwf : WellFormed nrows ncols G)
    {ms ms' : List (Int × Int)} (h : ∀ p, ms.count p % 2 = ms'.count p % 2) :
    applyMoves nrows ncols ms G = applyMoves nrows ncols ms' G := by
  obtain ⟨A, eA, wA, cA⟩ := applyMoves_cell ms hwf
  obtain ⟨B, eB, wB, cB⟩ := applyMoves_cell ms' hwf
  rw [eA, eB]
  congr 1
  apply Grid.ext_cell
  · have := wA.1; have := wB.1; omega
  · intro i j
    rw [cA, cB, countP_inCross, countP_inCross]
    have h1 := h ((i : Int), (j : Int))
    have h2 := h ((i : Int), (j : Int) + 1)
    have h3 := h ((i : Int), (j : Int) - 1)
    have h4 := h ((i : Int) + 1, (j : Int))
    have h5 := h ((i : Int) - 1, (j : Int))
    have hpar : (List.count ((i : Int), (j : Int)) ms + List.count ((i : Int), (j : Int) + 1) ms +
          List.count ((i : Int), (j : Int) - 1) ms + List.count ((i : Int) + 1, (j : Int)) ms +
          List.count ((i : Int) - 1, (j : Int)) ms) % 2 =
        (List.count ((i : Int), (j : Int)) ms' + List.count ((i : Int), (j : Int) + 1) ms' +
          List.count ((i : Int), (j : Int) - 1) ms' + List.count ((i : Int) + 1, (j : Int)) ms' +
          List.count ((i : Int) - 1, (j : Int)) ms') % 2 := by
      omega
    rw [hpar]

/-- C16: cross toggles commute.  On a well-formed board, toggling at `(y1, x1)`
then `(y2, x2)` gives the board that toggling at `(y2, x2)` then `(y1, x1)`
gives, with `simulateFlip` and with player moves; the board that a sequence of
toggles produces, the one of `createBoard` included (for the dimensions at
which it returns a board, array lengths with `nrows * ncols` at most `2 ^ 53`),
depends only on the parity of the number of toggles at each coordinate. -/
theorem toggles_commute (nrows ncols : Int) (G : Grid) (hwf : WellFormed nrows ncols G) :
    (∀ y1 x1 y2 x2 : Int, ∃ A B C,
      simulateFlip nrows ncols G y1 x1 = some A ∧ simulateFlip nrows ncols A y2 x2 = some C ∧
      simulateFlip nrows ncols G y2 x2 = some B ∧ simulateFlip nrows ncols B y1 x1 = some C ∧
      ∀ (h : Heap) (b : Nat), h.deref b = some G →
        ∃ h1 b1 h2 b2,
          playMoves nrows ncols [(y1, x1), (y2, x2)] h b = some (h1, b1) ∧
          playMoves nrows ncols [(y2, x2), (y1, x1)] h b = some (h2, b2) ∧
          h1.deref b1 = some C ∧ h2.deref b2 = some C) ∧
    (∀ ms ms' : List (Int × Int), (∀ p, ms.count p % 2 = ms'.count p % 2) →
      applyMoves nrows ncols ms G = applyMoves nrows ncols ms' G ∧
      ∃ G', applyMoves nrows ncols ms G = some G') ∧
    (∀ (chanceLightStartsOn : ℚ) (draws : Nat → ℚ) (ms : List (Int × Int)),
      0 ≤ nrows → nrows < 2 ^ 32 → 0 ≤ ncols → ncols < 2 ^ 32 → nrows * ncols ≤ 2 ^ 53 →
      (∀ p, (specSeedMoves nrows ncols draws ++
          specLightMoves nrows ncols chanceLightStartsOn draws).count p % 2 = ms.count p % 2) →
      ∃ B n, createBoard nrows ncols chanceLightStartsOn draws = some (B, n) ∧
        applyMoves nrows ncols ms (allFalse nrows.toNat ncols.toNat) = some B) := by
  refine ⟨?_, ?_, ?_⟩
  · intro y1 x1 y2 x2
    obtain ⟨A, eA, wA, -⟩ := simulateFlip_spec hwf y1 x1
    obtain ⟨C, eC, -, -⟩ := simulateFlip_spec wA y2 x2
    obtain ⟨B, eB, wB, -⟩ := simulateFlip_spec hwf y2 x2
    obtain ⟨C', eC', -, -⟩ := simulateFlip_spec wB y1 x1
    have h12 : applyMoves nrows ncols [(y1, x1), (y2, x2)] G = some C := by
      simp only [applyMoves, eA, eC]
    have h21 : applyMoves nrows ncols [(y2, x2), (y1, x1)] G = some C' := by
      simp only [applyMoves, eB, eC']
    have hswap : applyMoves nrows ncols [(y1, x1), (y2, x2)] G =
        applyMoves nrows ncols [(y2, x2), (y1, x1)] G := by
      apply applyMoves_parity hwf
      intro p
      simp only [List.count_cons, List.count_nil]
      omega
    rw [h12, h21, Option.some.injEq] at hswap
    subst hswap
    refine ⟨A, B, C, eA, eC, eB, eC', ?_⟩
    intro h b hd
    obtain ⟨h1, b1, hp1, hd1⟩ := playMoves_spec _ hd hwf h12
    obtain ⟨h2, b2, hp2, hd2⟩ := playMoves_spec _ hd hwf h21
    exact ⟨h1, b1, h2, b2, hp1, hp2, hd1, hd2⟩
  · intro ms ms' hpar
    obtain ⟨G', e, -⟩ := applyMoves_wf ms hwf
    exact ⟨applyMoves_parity hwf hpar, G', e⟩
  · intro chance draws ms hr hr2 hc hc2 hN hpar
    obtain ⟨B, e, hm, -⟩ := createBoard_returns hr hr2 hc hc2 hN chance draws
    refine ⟨B, _, e, ?_⟩
    rw [← applyMoves_parity (allFalse_toNat_wf hr hc) hpar]
    exact hm

/-- Witness of C16: a list of toggles and one with the same parities. -/
theorem toggles_commute_witness :
    applyMoves 2 2 [(0, 0), (1, 1), (0, 0), (0, 0)] [[true, false], [false, false]] =
      applyMoves 2 2 [(1, 1), (0, 0)] [[true, false], [false, false]] ∧
    ∃ G', applyMoves 2 2 [(0, 0), (1, 1), (0, 0), (0, 0)] [[true, false], [false, false]]
      = some G' :=
  (toggles_commute 2 2 [[true, false], [false, false]] (by decide)).2.1
    [(0, 0), (1, 1), (0, 0), (0, 0)] [(1, 1), (0, 0)]
    (fun p => by
      simp only [List.count_cons, List.count_nil]
      split_ifs <;> simp_all)

/-! ## Cell keys -/

theorem digitValue_digitChar (k : Nat) (hk : k < 10) :
    digitValue (Nat.digitChar k) = some k := by
  interval_cases k <;> decide

theorem digitChar_ne_dash (k : Nat) (hk : k < 10) : Nat.digitChar k ≠ '-' := by
  interval_cases k <;> decide

theorem toDigitsCore_spec (fuel : Nat) :
    ∀ (n : Nat) (ds : List Char), n < fuel →
      ∃ l, Nat.toDigitsCore 10 fuel n ds = l ++ ds ∧ (∀ c ∈ l, c ≠ '-') ∧
        ∀ a : Nat, l.foldlM (fun acc c => (digitValue c).map (fun d => acc * 10 + d)) a
          = some (a * 10 ^ l.length + n) := by
  induction fuel with
  | zero => intro n ds h; exact absurd h (Nat.not_lt_zero n)
  | succ fuel ih =>
    intro n ds hn
    have hmod : n % 10 < 10 := Nat.mod_lt n (by decide)
    rw [Nat.toDigitsCore]
    by_cases h0 : n / 10 = 0
    · rw [if_pos h0]
      have hlt : n < 10 := by omega
      refine ⟨[Nat.digitChar (n % 10)], rfl, ?_, ?_⟩
      · intro c hc
        rw [List.mem_singleton] at hc
        rw [hc]
        exact digitChar_ne_dash _ hmod
      · intro a
        simp only [List.foldlM_cons, List.foldlM_nil, digitValue_digitChar _ hmod,
          Option.map_some', Option.bind_eq_bind, Option.some_bind, Option.pure_def,
          List.length_singleton, pow_one, Option.some.injEq]
        omega
    · rw [if_neg h0]
      obtain ⟨l, el, hl, hp⟩ := ih (n / 10) (Nat.digitChar (n % 10) :: ds) (by omega)
      refine ⟨l ++ [Nat.digitChar (n % 10)], ?_, ?_, ?_⟩
      · rw [el]; simp
      · intro c hc
        rcases List.mem_append.1 hc with h | h
        · exact hl c h
        · rw [List.mem_singleton] at h
          rw [h]
          exact digitChar_ne_dash _ hmod
      · intro a
        rw [List.foldlM_append, hp a]
        simp only [List.foldlM_cons, List.foldlM_nil, digitValue_digitChar _ hmod,
          Option.map_some', Option.bind_eq_bind, Option.some_bind, Option.pure_def,
          List.length_append, List.length_singleton, Option.some.injEq]
        rw [pow_succ]
        have := Nat.div_add_mod n 10
        nlinarith [Nat.div_add_mod n 10]

theorem decimal_no_dash (n : Nat) : ∀ c ∈ decimal n, c ≠ '-' := by
  obtain ⟨l, el, hl, -⟩ := toDigitsCore_spec (n + 1) n [] (Nat.lt_succ_self n)
  intro c hc
  rw [decimal, Nat.toDigits, el, List.append_nil] at hc
  exact hl c hc

theorem Number_decimal_round (n : Nat) :
    Number (decimal n) = some ⌊roundDouble (n : ℚ)⌋.toNat := by
  obtain ⟨l, el, -, hp⟩ := toDigitsCore_spec (n + 1) n [] (Nat.lt_succ_self n)
  rw [Number, decimal, Nat.toDigits, el, List.append_nil, hp 0]
  simp only [Nat.zero_mul, Nat.zero_add, Option.map_some']

theorem Number_decimal {n : Nat} (hn : n ≤ 2 ^ 53) : Number (decimal n) = some n := by
  rw [Number_decimal_round, roundDouble_natCast hn]
  simp

theorem split_of_no_sep (sep : Char) (l : List Char) (h : ∀ c ∈ l, c ≠ sep) :
    split sep l = [l] := by
  induction l with
  | nil => rfl
  | cons c cs ih =>
    have hc : c ≠ sep := h c (List.mem_cons_self c cs)
    rw [split, if_neg hc, ih (fun d hd => h d (List.mem_cons_of_mem c hd))]

theorem split_append_sep (sep : Char) (l r : List Char) (h : ∀ c ∈ l, c ≠ sep) :
    split sep (l ++ sep :: r) = l :: split sep r := by
  induction l with
  | nil => simp [split]
  | cons c cs ih =>
    have hc : c ≠ sep := h c (List.mem_cons_self c cs)
    rw [List.cons_append, split, if_neg hc, ih (fun d hd => h d (List.mem_cons_of_mem c hd))]

theorem parse_coord_round (y x : Nat) :
    flipCellsAround.parse (Board.coord y x) =
      some (((⌊roundDouble (y : ℚ)⌋.toNat : Nat) : Int),
        ((⌊roundDouble (x : ℚ)⌋.toNat : Nat) : Int)) := by
  rw [flipCellsAround.parse, Board.coord, split_append_sep _ _ _ (decimal_no_dash y),
    split_of_no_sep _ _ (decimal_no_dash x)]
  simp only [List.map_cons, List.map_nil, Number_decimal_round]

theorem parse_coord {y x : Nat} (hy : y ≤ 2 ^ 53) (hx : x ≤ 2 ^ 53) :
    flipCellsAround.parse (Board.coord y x) = some ((y : Int), (x : Int)) := by
  rw [flipCellsAround.parse, Board.coord, split_append_sep _ _ _ (decimal_no_dash y),
    split_of_no_sep _ _ (decimal_no_dash x)]
  simp only [List.map_cons, List.map_nil, Number_decimal hy, Number_decimal hx]

/-! ## The rendered view and the session -/

theorem Board.tableRows_eq (ncols : Int) (board : Grid) (ys : List Nat) :
    ∀ cells, Board.tableRows ncols board ys = some cells →
      cells = ys.map (fun (y : Nat) => (List.range ncols.toNat).map
        (fun (x : Nat) => (Board.coord y x, (Grid.cell board y x).getD false))) := by
  induction ys with
  | nil =>
    intro cells h
    simp only [Board.tableRows, Option.some.injEq] at h
    rw [← h]; rfl
  | cons y ys ih =>
    intro cells h
    rw [Board.tableRows] at h
    cases hy : board[y]? with
    | none => simp [hy] at h
    | some row =>
      simp only [hy] at h
      cases hr : Board.tableRows ncols board ys with
      | none => simp [hr] at h
      | some rest =>
        simp only [hr, Option.some.injEq] at h
        rw [← h, List.map_cons, ← ih rest hr]
        simp only [Grid.cell, hy]

theorem Board.tableRows_isSome (ncols : Int) (board : Grid) (ys : List Nat)
    (h : ∀ y ∈ ys, y < board.length) :
    ∃ cells, Board.tableRows ncols board ys = some cells := by
  induction ys with
  | nil => exact ⟨[], rfl⟩
  | cons y ys ih =>
    obtain ⟨rest, hr⟩ := ih (fun z hz => h z (List.mem_cons_of_mem y hz))
    have hy : y < board.length := h y (List.mem_cons_self y ys)
    rw [Board.tableRows, List.getElem?_eq_getElem hy]
    simp only [hr]
    exact ⟨_, rfl⟩

theorem Board.render_playing {nrows ncols : Int} {G : Grid} (hwf : WellFormed nrows ncols G)
    (hw : hasWon G = false) :
    Board.render nrows ncols G = some (View.table
      ((List.range nrows.toNat).map (fun (y : Nat) => (List.range ncols.toNat).map
        (fun (x : Nat) => (Board.coord y x, (Grid.cell G y x).getD false))))) := by
  have hlen := hwf.1
  obtain ⟨cells, hc⟩ := Board.tableRows_isSome ncols G (List.range nrows.toNat)
    (fun y hy => by have := List.mem_range.1 hy; omega)
  rw [Board.render, hw, hc, Board.tableRows_eq ncols G _ cells hc]
  rfl

theorem Board.render_won (nrows ncols : Int) {G : Grid} (hw : hasWon G = true) :
    Board.render nrows ncols G = some View.win := by
  rw [Board.render, if_pos hw]

theorem Board.coord_mem_handlers (nrows ncols : Nat) (G : Grid) {y x : Nat}
    (hy : y < nrows) (hx : x < ncols) :
    Board.coord y x ∈ (View.table
      ((List.range nrows).map (fun (y : Nat) => (List.range ncols).map
        (fun (x : Nat) => (Board.coord y x, (Grid.cell G y x).getD false))))).handlers := by
  simp only [View.handlers, List.mem_map, List.mem_flatten, List.mem_range]
  exact ⟨(Board.coord y x, (Grid.cell G y x).getD false),
    ⟨_, ⟨y, hy, rfl⟩, List.mem_map.2 ⟨x, List.mem_range.2 hx, rfl⟩⟩, rfl⟩

theorem flipCellsAround_coord (nrows ncols : Int) {y x : Nat} (hy : y ≤ 2 ^ 53)
    (hx : x ≤ 2 ^ 53) (h : Heap) (b : Nat) :
    flipCellsAround nrows ncols (Board.coord y x) h b =
      flipCellsAround.updater nrows ncols y x h b := by
  rw [flipCellsAround, parse_coord hy hx]

theorem flipCellsAround_coord_round (nrows ncols : Int) (y x : Nat) (h : Heap) (b : Nat) :
    flipCellsAround nrows ncols (Board.coord y x) h b =
      flipCellsAround.updater nrows ncols ((⌊roundDouble (y : ℚ)⌋.toNat : Nat) : Int)
        ((⌊roundDouble (x : ℚ)⌋.toNat : Nat) : Int) h b := by
  rw [flipCellsAround, parse_coord_round]

/-- Counterexample to C15 as stated: the numeral of `2 ^ 53 + 1` converts to
the double `2 ^ 53`, so the key of `(9007199254740993, 0)` does not parse back
to that coordinate. -/
theorem parse_coord_not_exact :
    flipCellsAround.parse (Board.coord 9007199254740993 0) = some (9007199254740992, 0) ∧
      flipCellsAround.parse (Board.coord 9007199254740993 0) ≠ some (9007199254740993, 0) := by
  have h : flipCellsAround.parse (Board.coord 9007199254740993 0)
      = some (9007199254740992, 0) := by
    rw [parse_coord_round]
    have h1 : ((9007199254740993 : Nat) : ℚ) = 9007199254740993 := by norm_num
    have h2 : ((0 : Nat) : ℚ) = 0 := by norm_num
    rw [h1, h2, roundDouble_example_53, roundDouble_zero]
    have h3 : ⌊(9007199254740992 : ℚ)⌋ = 9007199254740992 := by
      rw [Int.floor_eq_iff]
      constructor <;> norm_num
    rw [h3, Int.floor_zero]
    rfl
  refine ⟨h, ?_⟩
  rw [h]
  intro hc
  simp only [Option.some.injEq, Prod.mk.injEq] at hc
  omega

/-- C15, amended: the coordinate string round-trips for indexes up to `2 ^ 53`.
For all natural numbers `y`, `x` up to `2 ^ 53` the key `decimal y`, dash,
`decimal x` splits on the dash into the two numerals, each converts back to
its number, and the parse of `flipCellsAround` returns `(y, x)`; the cell that
the view shows at `(y, x)` carries this key, so a click on it runs the updater
at `(y, x)` and toggles the cross centred there. -/
theorem coord_round_trip (y x : Nat) (hy : y ≤ 2 ^ 53) (hx : x ≤ 2 ^ 53) :
    split '-' (Board.coord y x) = [decimal y, decimal x] ∧
    Number (decimal y) = some y ∧ Number (decimal x) = some x ∧
    flipCellsAround.parse (Board.coord y x) = some ((y : Int), (x : Int)) ∧
    (∀ (nrows ncols : Int) (G : Grid) (cells : List (List (List Char × Bool))),
      Board.render nrows ncols G = some (View.table cells) →
      (y : Int) < nrows → (x : Int) < ncols →
      ∃ row lit, cells[y]? = some row ∧ row[x]? = some (Board.coord y x, lit)) ∧
    (∀ (nrows ncols : Int) (G : Grid) (h : Heap) (b : Nat),
      WellFormed nrows ncols G → h.deref b = some G →
      ∃ h' b' G', flipCellsAround nrows ncols (Board.coord y x) h b = some (h', b') ∧
        h'.deref b' = some G' ∧ simulateFlip nrows ncols G y x = some G') := by
  refine ⟨?_, Number_decimal hy, Number_decimal hx, parse_coord hy hx, ?_, ?_⟩
  · rw [Board.coord, split_append_sep _ _ _ (decimal_no_dash y),
      split_of_no_sep _ _ (decimal_no_dash x)]
  · intro nrows ncols G cells hrender hy hx
    rw [Board.render] at hrender
    by_cases hw : hasWon G = true
    · rw [if_pos hw] at hrender
      exact absurd hrender (by simp)
    rw [if_neg hw] at hrender
    cases hc : Board.tableRows ncols G (List.range nrows.toNat) with
    | none => simp [hc] at hrender
    | some cs =>
      simp only [hc, Option.some.injEq, View.table.injEq] at hrender
      subst hrender
      rw [Board.tableRows_eq ncols G _ cs hc]
      have hy' : y < nrows.toNat := by omega
      have hx' : x < ncols.toNat := by omega
      refine ⟨(List.range ncols.toNat).map
        (fun (x : Nat) => (Board.coord y x, (Grid.cell G y x).getD false)),
        (Grid.cell G y x).getD false, ?_, ?_⟩
      · rw [List.getElem?_map, List.getElem?_range hy']; rfl
      · rw [List.getElem?_map, List.getElem?_range hx']; rfl
  · intro nrows ncols G h b hwf hd
    obtain ⟨h', b', G', hu, hs, hn, -⟩ := flipCellsAround.updater_spec hd hwf (y : Int) (x : Int)
    exact ⟨h', b', G', by rw [flipCellsAround_coord nrows ncols hy hx, hu], hn, hs⟩

/-- Witness of C15, amended: the click on the cell shown at `(1, 0)` of a 2×2 board. -/
theorem coord_round_trip_witness :
    ∃ h' b' G',
      flipCellsAround 2 2 (Board.coord 1 0) ⟨[[true, false], [false, false]], [[0, 1]]⟩ 0
        = some (h', b') ∧
      h'.deref b' = some G' ∧ simulateFlip 2 2 [[true, false], [false, false]] 1 0 = some G' :=
  (coord_round_trip 1 0 (by norm_num) (by norm_num)).2.2.2.2.2 2 2
    [[true, false], [false, false]]
    ⟨[[true, false], [false, false]], [[0, 1]]⟩ 0 (by decide) (by decide)

theorem Board.Step_of_won {nrows ncols : Int} {s : Heap × Nat} {G : Grid}
    (hd : s.1.deref s.2 = some G) (hw : hasWon G = true) (s' : Heap × Nat) :
    ¬ Board.Step nrows ncols s s' := by
  rintro ⟨G1, view, coord, hd1, hr, hmem, -⟩
  rw [hd, Option.some.injEq] at hd1
  subst hd1
  rw [Board.render_won nrows ncols hw, Option.some.injEq] at hr
  subst hr
  simp [View.handlers] at hmem

/-- C11: won is terminal in the game session.  With the clicks that the view
offers as steps, a board on which `hasWon` is true renders as the heading
without any cell, no step is enabled from it, and every run that starts there
stays there; a well-formed board that is not won offers a step at each of its
cells. -/
theorem won_is_terminal (nrows ncols : Int) (s : Heap × Nat) (G : Grid)
    (hd : s.1.deref s.2 = some G) :
    (hasWon G = true →
      Board.render nrows ncols G = some View.win ∧ View.win.handlers = [] ∧
      (∀ s', ¬ Board.Step nrows ncols s s') ∧
      (∀ s', Relation.ReflTransGen (Board.Step nrows ncols) s s' → s' = s)) ∧
    (hasWon G = false → WellFormed nrows ncols G →
      ∀ y x : Nat, (y : Int) < nrows → (x : Int) < ncols →
        ∃ s', Board.Step nrows ncols s s') := by
  constructor
  · intro hw
    refine ⟨Board.render_won nrows ncols hw, rfl, Board.Step_of_won hd hw, ?_⟩
    intro s' hrun
    rcases Relation.ReflTransGen.cases_head hrun with h | ⟨c, hstep, -⟩
    · exact h.symm
    · exact absurd hstep (Board.Step_of_won hd hw c)
  · intro hw hwf y x hy hx
    obtain ⟨h', b', G', hu, -, -, -⟩ := flipCellsAround.updater_spec hd hwf
      ((⌊roundDouble (y : ℚ)⌋.toNat : Nat) : Int) ((⌊roundDouble (x : ℚ)⌋.toNat : Nat) : Int)
    refine ⟨(h', b'), G, _, Board.coord y x, hd, Board.render_playing hwf hw, ?_, ?_⟩
    · exact Board.coord_mem_handlers _ _ G (by omega) (by omega)
    · rw [flipCellsAround_coord_round, hu]

/-- Witness of C11: the all-unlit 2×2 board held at address 0. -/
theorem won_is_terminal_witness :
    Board.render 2 2 [[false, false], [false, false]] = some View.win ∧
      View.win.handlers = [] ∧
      (∀ s', ¬ Board.Step 2 2
        ((⟨[[false, false], [false, false]], [[0, 1]]⟩ : Heap), 0) s') ∧
      (∀ s', Relation.ReflTransGen (Board.Step 2 2)
        ((⟨[[false, false], [false, false]], [[0, 1]]⟩ : Heap), 0) s' →
          s' = ((⟨[[false, false], [false, false]], [[0, 1]]⟩ : Heap), 0)) :=
  (won_is_terminal 2 2 ((⟨[[false, false], [false, false]], [[0, 1]]⟩ : Heap), 0)
    [[false, false], [false, false]] (by decide)).1 (by decide)

/-! ## Seed coordinates -/

/-- C18: every seed coordinate drawn by `createBoard` is on the grid.  For
`nrows`, `ncols` at least 1 and draws in `[0, 1)`, `⌊u * nrows⌋` lies in
`[0, nrows)` and `⌊u * ncols⌋` in `[0, ncols)`, for the exact product and for
the product in double precision (any double nearest to the exact one, the
dimensions up to `2 ^ 53`).  Each seed step of `createBoard`, which floors the
double product of a double draw, is a `simulateFlip` centred on an existing
cell, flips that cell, and is the move a player makes at that cell; the
`nrows * ncols` seed coordinates are all on the board. -/
theorem seed_coordinates_on_board (nrows ncols : Int) (hr : 1 ≤ nrows) (hc : 1 ≤ ncols)
    (draws : Nat → ℚ) (hd : ∀ n, 0 ≤ draws n ∧ draws n < 1) :
    (∀ u : ℚ, 0 ≤ u → u < 1 →
      (0 ≤ ⌊u * (nrows : ℚ)⌋ ∧ ⌊u * (nrows : ℚ)⌋ < nrows) ∧
      (0 ≤ ⌊u * (ncols : ℚ)⌋ ∧ ⌊u * (ncols : ℚ)⌋ < ncols)) ∧
    ((∀ n, IsDouble (draws n)) → nrows ≤ 2 ^ 53 → ncols ≤ 2 ^ 53 →
      ∀ s : GenState, WellFormed nrows ncols s.1 →
      ∃ (y x : Int) (G' : Grid) (v : Bool), onBoard nrows ncols (y, x) = true ∧
        createBoard.seedStep nrows ncols draws s = some (G', s.2 + 2) ∧
        simulateFlip nrows ncols s.1 y x = some G' ∧
        Grid.cell s.1 y.toNat x.toNat = some v ∧ Grid.cell G' y.toNat x.toNat = some (!v) ∧
        ∀ (h : Heap) (b : Nat), h.deref b = some s.1 →
          ∃ h' b', flipCellsAround.updater nrows ncols y x h b = some (h', b') ∧
            h'.deref b' = some G') ∧
    ((specSeedMoves nrows ncols draws).length = (nrows * ncols).toNat ∧
      ((∀ n, IsDouble (draws n)) → nrows ≤ 2 ^ 53 → ncols ≤ 2 ^ 53 →
        ∀ p ∈ specSeedMoves nrows ncols draws, onBoard nrows ncols p = true)) ∧
    (∀ u r : ℚ, IsDouble u → 0 ≤ u → u < 1 →
      (nrows ≤ 2 ^ 53 → IsNearestDouble (u * (nrows : ℚ)) r → 0 ≤ ⌊r⌋ ∧ ⌊r⌋ < nrows) ∧
      (ncols ≤ 2 ^ 53 → IsNearestDouble (u * (ncols : ℚ)) r → 0 ≤ ⌊r⌋ ∧ ⌊r⌋ < ncols)) := by
  have hrq : (0 : ℚ) < (nrows : ℚ) := by exact_mod_cast (by omega : (0 : Int) < nrows)
  have hcq : (0 : ℚ) < (ncols : ℚ) := by exact_mod_cast (by omega : (0 : Int) < ncols)
  have hfl : ∀ (n : Int), (0 : ℚ) < (n : ℚ) → ∀ u : ℚ, 0 ≤ u → u < 1 →
      0 ≤ ⌊u * (n : ℚ)⌋ ∧ ⌊u * (n : ℚ)⌋ < n := by
    intro n hn u h0 h1
    exact ⟨Int.floor_nonneg.2 (mul_nonneg h0 hn.le), Int.floor_lt.2 (mul_lt_of_lt_one_left hn h1)⟩
  have hround : ∀ (n : Int), 1 ≤ n → n ≤ 2 ^ 53 → ∀ u r : ℚ, IsDouble u → 0 ≤ u → u < 1 →
      IsNearestDouble (u * (n : ℚ)) r → 0 ≤ ⌊r⌋ ∧ ⌊r⌋ < n := by
    intro n h1 h2 u r hu hu0 hu1 hnear
    obtain ⟨k, rfl⟩ : ∃ k : Nat, n = (k : Int) := ⟨n.toNat, by omega⟩
    have hk1 : 1 ≤ k := by omega
    have hk2 : k ≤ 2 ^ 53 := by exact_mod_cast h2
    rw [Int.cast_natCast] at hnear
    exact floor_nearest_product hu hu0 hu1 hk1 hk2 hnear
  refine ⟨?_, ?_, ?_, ?_⟩
  · intro u h0 h1
    exact ⟨hfl nrows hrq u h0 h1, hfl ncols hcq u h0 h1⟩
  · intro hdbl hr2 hc2 s hwf
    obtain ⟨g, p⟩ := s
    have hwf' : WellFormed nrows ncols g := hwf
    obtain ⟨hy0, hy1⟩ := floor_roundDouble_product (hdbl p) (hd _).1 (hd _).2 hr hr2
    obtain ⟨hx0, hx1⟩ := floor_roundDouble_product (hdbl (p + 1)) (hd _).1 (hd _).2 hc hc2
    have hstep := seedStep_eq nrows ncols draws g p
    generalize ⌊roundDouble (draws p * (nrows : ℚ))⌋ = y at hy0 hy1 hstep
    generalize ⌊roundDouble (draws (p + 1) * (ncols : ℚ))⌋ = x at hx0 hx1 hstep
    obtain ⟨G', e, -, c⟩ := simulateFlip_spec hwf' y x
    have hyc : ((y.toNat : Nat) : Int) = y := Int.toNat_of_nonneg hy0
    have hxc : ((x.toNat : Nat) : Int) = x := Int.toNat_of_nonneg hx0
    obtain ⟨v, hv⟩ := hwf'.cell_isSome (i := y.toNat) (j := x.toNat) (by omega) (by omega)
    refine ⟨y, x, G', v, ?_, ?_, e, hv, ?_, ?_⟩
    · simp only [onBoard, decide_eq_true_eq]
      exact ⟨hy0, hy1, hx0, hx1⟩
    · rw [hstep, e]
      rfl
    · rw [c, hyc, hxc, if_pos (by simp [inCross]), hv]
      rfl
    · intro h b hdr
      obtain ⟨h', b', G1, hu, hs, hn, -⟩ := flipCellsAround.updater_spec hdr hwf' y x
      rw [e, Option.some.injEq] at hs
      subst hs
      exact ⟨h', b', hu, hn⟩
  · exact ⟨by simp [specSeedMoves],
      fun hdbl hr2 hc2 => specSeedMoves_onBoard hr hr2 hc hc2 hdbl hd⟩
  · intro u r hu hu0 hu1
    exact ⟨fun h2 hn => hround nrows hr h2 u r hu hu0 hu1 hn,
      fun h2 hn => hround ncols hc h2 u r hu hu0 hu1 hn⟩

/-- Witness of C18: the seed coordinates of a 2×3 board for the constant draw
`0`, and the product of the double `1/2` with `nrows = 2`, which is the double `1`. -/
theorem seed_coordinates_on_board_witness :
    ((specSeedMoves 2 3 (fun _ => 0)).length = ((2 : Int) * 3).toNat ∧
      ∀ p ∈ specSeedMoves 2 3 (fun _ => 0), onBoard 2 3 p = true) ∧
    (0 ≤ ⌊(1 : ℚ)⌋ ∧ ⌊(1 : ℚ)⌋ < (2 : Int)) :=
  ⟨⟨(seed_coordinates_on_board 2 3 (by decide) (by decide) (fun _ => 0)
        (fun _ => ⟨le_refl 0, zero_lt_one⟩)).2.2.1.1,
      (seed_coordinates_on_board 2 3 (by decide) (by decide) (fun _ => 0)
        (fun _ => ⟨le_refl 0, zero_lt_one⟩)).2.2.1.2 (fun _ => IsDouble.zero)
        (by norm_num) (by norm_num)⟩,
    ((seed_coordinates_on_board 2 3 (by decide) (by decide) (fun _ => 0)
      (fun _ => ⟨le_refl 0, zero_lt_one⟩)).2.2.2 (1 / 2) 1
      ⟨1, -1, by norm_num, by norm_num, by norm_num, by norm_num⟩
      (by norm_num) (by norm_num)).1 (by norm_num)
      ⟨⟨1, 0, by norm_num, by norm_num, by norm_num, by norm_num⟩,
        fun r' _ => by norm_num⟩⟩

end LightsOut
